import Mathlib

/-!
Verification development for the *n6* Event DB data-backend API
(`n6lib/data_backend_api.py`): a shallow embedding, in Lean 4, of the
time-windowed streaming query engine (`_EventsQueryProcessor`), the
category-count processor (`_CountsQueryProcessor`), the transactional
scope (`_EventDatabaseTransactionContextManager`) and the error
translation scope (`_BaseQueryProcessor.handling_db_api_error`),
together with theorems about the properties these components are
expected to satisfy.

Modelling conventions:

* `datetime.datetime` values are embedded as `Int` (a timestamp in
  seconds); `datetime.timedelta(days=d)` becomes `d * 86400` and
  `datetime.timedelta(hours=1)` becomes `3600`.
* Python generators / `while` loops are embedded as structurally
  recursive functions consuming an explicit `fuel : Nat`; running out
  of fuel is reported (`Option`/dedicated status) and never silently
  truncates a result, so "the loop terminates" is expressible as
  "some fuel suffices".
* The SQL layer is embedded relationally: the event store is a list of
  fetched rows; a per-window query returns the rows matching the
  window's time bounds sorted descending by `time` (the `ORDER BY
  event.time DESC` of `_build_query_base_for_single_step`), and
  `LIMIT`/`OFFSET` become `List.take`/`List.drop` on that sorted list.
-/

/-! ### Time windows (`_EventsQueryProcessor._time_comparisons_per_step`)

A *step* (time window) is embedded as its lower bound, its upper bound
and whether the upper-bound comparison is inclusive (`<=`, used only
for the very first window when `time.until` is absent) or strict (`<`).
-/

/-- One time window (*step*): the pair of partially applied comparison
functions `(time >= lower, time <= upper)` / `(time >= lower, time < upper)`
yielded by `_time_comparisons_per_step`. -/
structure TimeWindow where
  lower : Int
  upper : Int
  upperIncl : Bool
deriving DecidableEq, Repr

/-- `datetime.timedelta(days=dayStep)` in seconds. -/
def stepDeltaOf (dayStep : Int) : Int := dayStep * 86400

/-- The `while time_lower > time_min or time_upper is None` loop of
`_time_comparisons_per_step`, entered *after* `time_upper` has already
been set (i.e. after the first window has been yielded in the
`time_until is None` branch): each iteration moves `time_upper` down to
the previous `time_lower`, sets `time_lower := max(time_min,
time_upper - step_delta)` and yields a strict-upper-bound window.
`fuel` bounds the number of iterations; `none` means the fuel was
exhausted before the loop finished. -/
def windowLoopFuel (timeMin stepDelta : Int) : Nat → Int → Option (List TimeWindow)
  | 0, _ => none
  | fuel + 1, timeLower =>
    if timeMin < timeLower then
      let timeUpper := timeLower
      let timeLower' := max timeMin (timeUpper - stepDelta)
      (windowLoopFuel timeMin stepDelta fuel timeLower').map
        (fun ws => ⟨timeLower', timeUpper, false⟩ :: ws)
    else
      some []

/-- `_EventsQueryProcessor._time_comparisons_per_step`: generates the
descending list of time windows for the constraints
`(time_min, time_max, time_until)`.  `now` stands for
`datetime.datetime.utcnow()`; when both `time_max` and `time_until`
are absent the first window's upper bound is `now + 1 hour`.

* `time_until` absent: the first window is
  `[max(time_min, upper - step), upper]` with an *inclusive* upper
  bound, `upper` being `time_max` or `now + 1h`; then the loop runs.
* `time_until` given: `time_upper` starts as `None` and `time_lower`
  as `time_until`, so the loop body runs at least once and only
  strict-upper-bound windows are produced. -/
def timeComparisonsPerStep (timeMin : Int) (timeMax timeUntil : Option Int)
    (dayStep : Int) (now : Int) (fuel : Nat) : Option (List TimeWindow) :=
  let stepDelta := stepDeltaOf dayStep
  match timeUntil with
  | none =>
    let timeUpper :=
      match timeMax with
      | some tm => tm
      | none => now + 3600
    let timeLower := max timeMin (timeUpper - stepDelta)
    (windowLoopFuel timeMin stepDelta fuel timeLower).map
      (fun ws => ⟨timeLower, timeUpper, true⟩ :: ws)
  | some timeUntilVal =>
    let timeUpper := timeUntilVal
    let timeLower := max timeMin (timeUpper - stepDelta)
    (windowLoopFuel timeMin stepDelta fuel timeLower).map
      (fun ws => ⟨timeLower, timeUpper, false⟩ :: ws)

/-- Fuel sufficiency: with positive `stepDelta`, fuel
`(timeLower - timeMin).toNat + 1` is enough for the window loop to
terminate. -/
theorem windowLoopFuel_sufficient (timeMin stepDelta : Int) (hD : 0 < stepDelta) :
    ∀ (timeLower : Int) (fuel : Nat), (timeLower - timeMin).toNat < fuel →
      (windowLoopFuel timeMin stepDelta fuel timeLower).isSome := by
  intro timeLower fuel
  induction fuel generalizing timeLower with
  | zero => omega
  | succ n ih =>
    intro hfuel
    rw [windowLoopFuel]
    by_cases h : timeMin < timeLower
    · simp only [if_pos h]
      have hrec : (windowLoopFuel timeMin stepDelta n (max timeMin (timeLower - stepDelta))).isSome := by
        apply ih
        omega
      rcases Option.isSome_iff_exists.mp hrec with ⟨ws, hws⟩
      simp [hws]
    · simp [h]

/-- The loop preserves: every generated window has `timeMin ≤ lower`,
its bounds satisfy `lower ≤ upper`, and its upper bound is strict. -/
theorem windowLoopFuel_bounds (timeMin stepDelta : Int) (hD : 0 ≤ stepDelta) :
    ∀ (fuel : Nat) (timeLower : Int) (ws : List TimeWindow),
      windowLoopFuel timeMin stepDelta fuel timeLower = some ws →
      ∀ w ∈ ws, timeMin ≤ w.lower ∧ w.lower ≤ w.upper ∧ w.upperIncl = false := by
  intro fuel
  induction fuel with
  | zero => intro timeLower ws h; simp [windowLoopFuel] at h
  | succ n ih =>
    intro timeLower ws h
    rw [windowLoopFuel] at h
    by_cases hc : timeMin < timeLower
    · simp only [if_pos hc, Option.map_eq_some'] at h
      rcases h with ⟨ws', hws', rfl⟩
      intro w hw
      rcases List.mem_cons.mp hw with rfl | hmem
      · refine ⟨le_max_left _ _, ?_, rfl⟩
        simp only
        omega
      · exact ih _ _ hws' w hmem
    · simp only [if_neg hc, Option.some.injEq] at h
      subst h
      intro w hw
      simp at hw

/-- If the loop returns an empty window list, its entry condition was
false, i.e. `timeLower ≤ timeMin`. -/
theorem windowLoopFuel_eq_nil (timeMin stepDelta : Int) (fuel : Nat) (timeLower : Int)
    (h : windowLoopFuel timeMin stepDelta fuel timeLower = some []) :
    timeLower ≤ timeMin := by
  cases fuel with
  | zero => simp [windowLoopFuel] at h
  | succ n =>
    rw [windowLoopFuel] at h
    by_cases hc : timeMin < timeLower
    · simp only [if_pos hc, Option.map_eq_some'] at h
      rcases h with ⟨ws', _, h⟩
      simp at h
    · omega

/-- If the loop returns a nonempty window list, its entry condition was
true, i.e. `timeMin < timeLower`. -/
theorem windowLoopFuel_eq_cons (timeMin stepDelta : Int) (fuel : Nat) (timeLower : Int)
    (w : TimeWindow) (ws : List TimeWindow)
    (h : windowLoopFuel timeMin stepDelta fuel timeLower = some (w :: ws)) :
    timeMin < timeLower := by
  by_contra hc
  cases fuel with
  | zero => simp [windowLoopFuel] at h
  | succ n =>
    rw [windowLoopFuel] at h
    simp only [if_neg hc, Option.some.injEq] at h
    exact List.cons_ne_nil w ws h.symm

/-- Structure of the loop output: the first window's upper bound is the
entry `timeLower` and its lower bound is `max timeMin (timeLower - stepDelta)`;
each subsequent window's upper bound is the previous window's lower
bound (which is `> timeMin`, since the loop continued) and its lower
bound is again obtained by the `max timeMin (upper - stepDelta)` rule. -/
theorem windowLoopFuel_chain (timeMin stepDelta : Int) :
    ∀ (fuel : Nat) (timeLower : Int) (ws : List TimeWindow),
      windowLoopFuel timeMin stepDelta fuel timeLower = some ws →
      (∀ w, ws.head? = some w →
        w.upper = timeLower ∧ w.lower = max timeMin (timeLower - stepDelta)) ∧
      ws.Chain' (fun a b =>
        timeMin < a.lower ∧ b.upper = a.lower ∧
        b.lower = max timeMin (a.lower - stepDelta)) := by
  intro fuel
  induction fuel with
  | zero => intro timeLower ws h; simp [windowLoopFuel] at h
  | succ n ih =>
    intro timeLower ws h
    rw [windowLoopFuel] at h
    by_cases hc : timeMin < timeLower
    · simp only [if_pos hc, Option.map_eq_some'] at h
      rcases h with ⟨ws', hws', rfl⟩
      rcases ih _ _ hws' with ⟨ihHead, ihChain⟩
      constructor
      · intro w hw
        simp only [List.head?_cons, Option.some.injEq] at hw
        subst hw
        exact ⟨rfl, rfl⟩
      · cases ws' with
        | nil => simp
        | cons w' ws'' =>
          refine List.Chain'.cons ?_ ihChain
          have hcont := windowLoopFuel_eq_cons timeMin stepDelta n _ w' ws'' hws'
          rcases ihHead w' rfl with ⟨hup, hlo⟩
          exact ⟨hcont, hup, hlo⟩
    · simp only [if_neg hc, Option.some.injEq] at h
      subst h
      exact ⟨by intro w hw; simp at hw, List.chain'_nil⟩

/-- The last window generated by the loop has `lower = timeMin` (the
loop runs until the lower bound hits `timeMin` exactly). -/
theorem windowLoopFuel_getLast_lower (timeMin stepDelta : Int) :
    ∀ (fuel : Nat) (timeLower : Int) (ws : List TimeWindow) (w : TimeWindow),
      windowLoopFuel timeMin stepDelta fuel timeLower = some ws →
      ws.getLast? = some w → w.lower = timeMin := by
  intro fuel
  induction fuel with
  | zero => intro timeLower ws w h; simp [windowLoopFuel] at h
  | succ n ih =>
    intro timeLower ws w h hlast
    rw [windowLoopFuel] at h
    by_cases hc : timeMin < timeLower
    · simp only [if_pos hc, Option.map_eq_some'] at h
      rcases h with ⟨ws', hws', rfl⟩
      cases ws' with
      | nil =>
        simp only [List.getLast?_singleton, Option.some.injEq] at hlast
        subst hlast
        have hle := windowLoopFuel_eq_nil timeMin stepDelta n _ hws'
        simp only
        omega
      | cons w' ws'' =>
        have : (⟨max timeMin (timeLower - stepDelta), timeLower, false⟩ :: w' :: ws'').getLast?
            = (w' :: ws'').getLast? := by
          simp [List.getLast?_cons_cons]
        rw [this] at hlast
        exact ih _ _ _ hws' hlast
    · simp only [if_neg hc, Option.some.injEq] at h
      subst h
      simp at hlast

/-- Lower-bound formula for the loop output: starting from
`timeMin ≤ timeLower` with positive step, the `i`-th generated window
has `lower = max timeMin (timeLower - (i+1) * stepDelta)`. -/
theorem windowLoopFuel_get_lower (timeMin stepDelta : Int) :
    ∀ (fuel : Nat) (timeLower : Int) (ws : List TimeWindow),
      timeMin ≤ timeLower →
      windowLoopFuel timeMin stepDelta fuel timeLower = some ws →
      ∀ (i : Nat) (hi : i < ws.length),
        (ws.get ⟨i, hi⟩).lower = max timeMin (timeLower - (↑i + 1) * stepDelta) := by
  intro fuel
  induction fuel with
  | zero => intro timeLower ws _ h; simp [windowLoopFuel] at h
  | succ n ih =>
    intro timeLower ws hle h
    rw [windowLoopFuel] at h
    by_cases hc : timeMin < timeLower
    · simp only [if_pos hc, Option.map_eq_some'] at h
      rcases h with ⟨ws', hws', rfl⟩
      intro i hi
      cases i with
      | zero => simp
      | succ j =>
        simp only [List.length_cons, Nat.succ_lt_succ_iff] at hi
        have hget : ((⟨max timeMin (timeLower - stepDelta), timeLower, false⟩ :: ws').get
            ⟨j + 1, by simpa using Nat.succ_lt_succ hi⟩) = ws'.get ⟨j, hi⟩ := rfl
        rw [hget]
        by_cases hbig : timeMin ≤ timeLower - stepDelta
        · have hmax : max timeMin (timeLower - stepDelta) = timeLower - stepDelta := by omega
          rw [hmax] at hws'
          have := ih _ _ hbig hws' j hi
          rw [this]
          have harith : timeLower - stepDelta - (↑j + 1) * stepDelta
              = timeLower - (↑(j + 1) + 1) * stepDelta := by push_cast; ring
          rw [harith]
        · have hmax : max timeMin (timeLower - stepDelta) = timeMin := by omega
          rw [hmax] at hws'
          cases ws' with
          | nil => simp at hi
          | cons w' ws'' =>
            have := windowLoopFuel_eq_cons timeMin stepDelta n _ w' ws'' hws'
            omega
    · simp only [if_neg hc, Option.some.injEq] at h
      subst h
      intro i hi
      simp at hi

/-- Auxiliary: the positive step delta obtained from `day_step ≥ 1`. -/
theorem stepDeltaOf_pos {dayStep : Int} (h : 1 ≤ dayStep) : 0 < stepDeltaOf dayStep := by
  unfold stepDeltaOf
  nlinarith

/-- Shared chain argument: prefixing the loop output with the first
window (whose lower bound is `max timeMin (U0 - stepDelta)`, the loop's
entry point) yields a list whose consecutive windows have strictly
decreasing lower bounds, each decrease being at most `stepDelta`. -/
theorem windows_chain_strict (timeMin stepDelta : Int) (hD : 0 < stepDelta)
    (fuel : Nat) (U0 : Int) (incl : Bool) (tail : List TimeWindow)
    (htail : windowLoopFuel timeMin stepDelta fuel (max timeMin (U0 - stepDelta)) = some tail) :
    List.Chain' (fun a b => b.lower < a.lower ∧ a.lower - b.lower ≤ stepDelta)
      (⟨max timeMin (U0 - stepDelta), U0, incl⟩ :: tail) := by
  rcases windowLoopFuel_chain timeMin stepDelta fuel _ tail htail with ⟨hhead, hchain⟩
  have hchain' : tail.Chain' (fun a b => b.lower < a.lower ∧ a.lower - b.lower ≤ stepDelta) := by
    refine hchain.imp ?_
    intro a b ⟨hlt, _, hlo⟩
    constructor
    · rw [hlo]; omega
    · rw [hlo]; omega
  cases tail with
  | nil => simp
  | cons w' tail' =>
    refine List.Chain'.cons ?_ hchain'
    have hcont := windowLoopFuel_eq_cons timeMin stepDelta fuel _ w' tail' htail
    rcases hhead w' rfl with ⟨hup, hlo⟩
    constructor
    · rw [hlo]; simp only; omega
    · rw [hlo]; simp only; omega

/-- The property package claimed for the windows generated when both
`time.max` and `time.until` are absent (`U` below is `now + 1 hour`):
nonempty descending window list, lower bounds following the
`max(time_min, U - k*day_step)` formula, last lower bound exactly
`time_min`, inclusive upper-bound comparison exactly on the first
window, strictly descending lower bounds, and no window below
`time_min`. -/
def OpenEndedWindowsSpec (timeMin dayStep now : Int) (ws : List TimeWindow) : Prop :=
  ws ≠ [] ∧
  (∀ (i : Nat) (hi : i < ws.length),
    (ws.get ⟨i, hi⟩).lower = max timeMin (now + 3600 - (↑i + 1) * stepDeltaOf dayStep)) ∧
  (∀ w, ws.getLast? = some w → w.lower = timeMin) ∧
  (∀ (i : Nat) (hi : i < ws.length), ((ws.get ⟨i, hi⟩).upperIncl = true ↔ i = 0)) ∧
  List.Chain' (fun a b => b.lower < a.lower) ws ∧
  (∀ w ∈ ws, timeMin ≤ w.lower)

/-- **C2.** When `time_max` and `time_until` are both absent, the window
generator produces windows in strictly descending order whose lower
bounds are `max(time_min, U - day_step), max(time_min, U - 2*day_step), ...`
down to exactly `time_min` on the last window, where `U = now + 1 hour`;
only the first window's upper-bound comparison is inclusive, and no
window extends below `time_min`. -/
theorem claim_C2_open_ended_windows (timeMin dayStep now : Int) (fuel : Nat)
    (ws : List TimeWindow) (hstep : 1 ≤ dayStep)
    (h : timeComparisonsPerStep timeMin none none dayStep now fuel = some ws) :
    OpenEndedWindowsSpec timeMin dayStep now ws := by
  have hD : 0 < stepDeltaOf dayStep := stepDeltaOf_pos hstep
  simp only [timeComparisonsPerStep, Option.map_eq_some'] at h
  rcases h with ⟨tail, htail, rfl⟩
  set D := stepDeltaOf dayStep with hDdef
  set U := now + 3600 with hUdef
  set L0 := max timeMin (U - D) with hL0def
  have hL0ge : timeMin ≤ L0 := le_max_left _ _
  refine ⟨List.cons_ne_nil _ _, ?_, ?_, ?_, ?_, ?_⟩
  · -- lower-bound formula
    intro i hi
    cases i with
    | zero => simp [hL0def]
    | succ j =>
      simp only [List.length_cons, Nat.succ_lt_succ_iff] at hi
      have hget : ((⟨L0, U, true⟩ :: tail).get ⟨j + 1, by simpa using Nat.succ_lt_succ hi⟩)
          = tail.get ⟨j, hi⟩ := rfl
      rw [hget]
      by_cases hbig : timeMin ≤ U - D
      · have hL0 : L0 = U - D := by omega
        have := windowLoopFuel_get_lower timeMin D fuel L0 tail hL0ge htail j hi
        rw [this, hL0]
        have harith : U - D - (↑j + 1) * D = U - (↑(j + 1) + 1) * D := by push_cast; ring
        rw [harith]
      · have hL0 : L0 = timeMin := by omega
        cases tail with
        | nil => simp at hi
        | cons w' tail' =>
          have := windowLoopFuel_eq_cons timeMin D fuel L0 w' tail' htail
          omega
  · -- last window's lower bound is exactly timeMin
    intro w hw
    cases tail with
    | nil =>
      simp only [List.getLast?_singleton, Option.some.injEq] at hw
      subst hw
      have := windowLoopFuel_eq_nil timeMin D fuel L0 htail
      simp only
      omega
    | cons w' tail' =>
      rw [List.getLast?_cons_cons] at hw
      exact windowLoopFuel_getLast_lower timeMin D fuel L0 _ w htail hw
  · -- inclusivity exactly on the first window
    intro i hi
    cases i with
    | zero => simp
    | succ j =>
      simp only [List.length_cons, Nat.succ_lt_succ_iff] at hi
      have hget : ((⟨L0, U, true⟩ :: tail).get ⟨j + 1, by simpa using Nat.succ_lt_succ hi⟩)
          = tail.get ⟨j, hi⟩ := rfl
      rw [hget]
      have hmem : tail.get ⟨j, hi⟩ ∈ tail := List.get_mem tail j hi
      have := (windowLoopFuel_bounds timeMin D (le_of_lt hD) fuel L0 tail htail) _ hmem
      rw [this.2.2]
      simp
  · -- strictly descending lower bounds
    have := windows_chain_strict timeMin D hD fuel U true tail htail
    exact this.imp (fun a b hab => hab.1)
  · -- no window extends below timeMin
    intro w hw
    rcases List.mem_cons.mp hw with rfl | hmem
    · exact hL0ge
    · exact ((windowLoopFuel_bounds timeMin D (le_of_lt hD) fuel L0 tail htail) _ hmem).1

/-- Witness for C2 at a concrete input: `time_min = 0`, `day_step = 1`,
`now = 200000` (so `U = 203600`), fuel 10. -/
theorem claim_C2_open_ended_windows_witness :
    1 ≤ (1 : Int) ∧
    timeComparisonsPerStep 0 none none 1 200000 10
      = some [⟨117200, 203600, true⟩, ⟨30800, 117200, false⟩, ⟨0, 30800, false⟩] ∧
    OpenEndedWindowsSpec 0 1 200000
      [⟨117200, 203600, true⟩, ⟨30800, 117200, false⟩, ⟨0, 30800, false⟩] :=
  ⟨by decide, by decide,
   claim_C2_open_ended_windows 0 1 200000 10 _ (by decide) (by decide)⟩

/-- The full window list (first window plus loop output) ends with a
window whose lower bound is exactly `timeMin`, and no window's lower
bound is below `timeMin`. -/
theorem windows_last_and_lower_ge (timeMin D : Int) (hD : 0 ≤ D) (fuel : Nat)
    (U0 : Int) (incl : Bool) (tail : List TimeWindow)
    (htail : windowLoopFuel timeMin D fuel (max timeMin (U0 - D)) = some tail) :
    (∀ w, (⟨max timeMin (U0 - D), U0, incl⟩ :: tail : List TimeWindow).getLast? = some w →
       w.lower = timeMin) ∧
    (∀ w ∈ (⟨max timeMin (U0 - D), U0, incl⟩ :: tail : List TimeWindow), timeMin ≤ w.lower) := by
  constructor
  · intro w hw
    cases tail with
    | nil =>
      simp only [List.getLast?_singleton, Option.some.injEq] at hw
      subst hw
      have := windowLoopFuel_eq_nil timeMin D fuel _ htail
      simp only
      omega
    | cons w' tail' =>
      rw [List.getLast?_cons_cons] at hw
      exact windowLoopFuel_getLast_lower timeMin D fuel _ _ w htail hw
  · intro w hw
    rcases List.mem_cons.mp hw with rfl | hmem
    · exact le_max_left _ _
    · exact ((windowLoopFuel_bounds timeMin D hD fuel _ tail htail) _ hmem).1

/-- **C10.** For every time-constraint triple with `time_min` present and
every `day_step ≥ 1`, the window generator terminates (some finite fuel
makes the loop complete), producing finitely many windows whose lower
bounds strictly decrease, each step decreasing by at most `day_step`
days, down to exactly `time_min` on the last window and never below
`time_min`. -/
theorem claim_C10_window_generator_terminates (timeMin : Int) (timeMax timeUntil : Option Int)
    (dayStep now : Int) (hstep : 1 ≤ dayStep) :
    ∃ (fuel : Nat) (ws : List TimeWindow),
      timeComparisonsPerStep timeMin timeMax timeUntil dayStep now fuel = some ws ∧
      List.Chain' (fun a b => b.lower < a.lower ∧ a.lower - b.lower ≤ stepDeltaOf dayStep) ws ∧
      (∀ w, ws.getLast? = some w → w.lower = timeMin) ∧
      (∀ w ∈ ws, timeMin ≤ w.lower) := by
  have hD := stepDeltaOf_pos hstep
  set D := stepDeltaOf dayStep with hDdef
  rcases timeUntil with _ | tu
  · -- time_until absent: upper bound is time_max or now + 1h
    rcases timeMax with _ | tm
    · set U0 := now + 3600 with hU0
      set L0 := max timeMin (U0 - D) with hL0
      set fuel := (L0 - timeMin).toNat + 1 with hfuel
      have hsome := windowLoopFuel_sufficient timeMin D hD L0 fuel (by omega)
      rcases Option.isSome_iff_exists.mp hsome with ⟨tail, htail⟩
      refine ⟨fuel, ⟨L0, U0, true⟩ :: tail, ?_, ?_, ?_⟩
      · simp only [timeComparisonsPerStep]
        rw [← hDdef, ← hL0]
        rw [htail]
        rfl
      · exact windows_chain_strict timeMin D hD fuel U0 true tail htail
      · exact windows_last_and_lower_ge timeMin D (le_of_lt hD) fuel U0 true tail htail
    · set U0 := tm with hU0
      set L0 := max timeMin (U0 - D) with hL0
      set fuel := (L0 - timeMin).toNat + 1 with hfuel
      have hsome := windowLoopFuel_sufficient timeMin D hD L0 fuel (by omega)
      rcases Option.isSome_iff_exists.mp hsome with ⟨tail, htail⟩
      refine ⟨fuel, ⟨L0, U0, true⟩ :: tail, ?_, ?_, ?_⟩
      · simp only [timeComparisonsPerStep]
        rw [← hDdef, ← hL0]
        rw [htail]
        rfl
      · exact windows_chain_strict timeMin D hD fuel U0 true tail htail
      · exact windows_last_and_lower_ge timeMin D (le_of_lt hD) fuel U0 true tail htail
  · -- time_until given: it is the first (strict) upper bound
    set U0 := tu with hU0
    set L0 := max timeMin (U0 - D) with hL0
    set fuel := (L0 - timeMin).toNat + 1 with hfuel
    have hsome := windowLoopFuel_sufficient timeMin D hD L0 fuel (by omega)
    rcases Option.isSome_iff_exists.mp hsome with ⟨tail, htail⟩
    refine ⟨fuel, ⟨L0, U0, false⟩ :: tail, ?_, ?_, ?_⟩
    · simp only [timeComparisonsPerStep]
      rw [← hDdef, ← hL0]
      rw [htail]
      rfl
    · exact windows_chain_strict timeMin D hD fuel U0 false tail htail
    · exact windows_last_and_lower_ge timeMin D (le_of_lt hD) fuel U0 false tail htail

/-- Witness for C10 at a concrete input (`time_until` given). -/
theorem claim_C10_window_generator_terminates_witness :
    1 ≤ (1 : Int) ∧
    (∃ (fuel : Nat) (ws : List TimeWindow),
      timeComparisonsPerStep 0 none (some 100000) 1 0 fuel = some ws ∧
      List.Chain' (fun a b => b.lower < a.lower ∧ a.lower - b.lower ≤ stepDeltaOf 1) ws ∧
      (∀ w, ws.getLast? = some w → w.lower = 0) ∧
      (∀ w ∈ ws, 0 ≤ w.lower)) :=
  ⟨by decide, claim_C10_window_generator_terminates 0 none (some 100000) 1 0 (by decide)⟩

/-! ### Rows, result dicts and `_preprocess_result_dict`

A fetched storage row carries the mapped columns.  Only the columns the
verified properties depend on are embedded: the event `id`, the event
`time`, the (possibly NULL) `client` organisation id contributed by the
outer join with `client_to_event`, the `url`, and the optional
`url_data` sub-structure of the `custom` column.  The remaining mapped
columns never vary within an `id`-group (per the source's invariant)
and play no role in any claim, so they are subsumed by the identity of
the sample row. -/

/-- The `url_data` sub-structure of the `custom` column: either a
mapping with exactly the keys `url_orig` (a base64-encoded original
URL) and `url_norm_opts` (a dict of normalization options, embedded as
an association list), or anything else (a non-dict value or a dict with
a different key set), which `_preprocess_result_dict` treats as
malformed. -/
inductive UrlData where
  | wellFormed (urlOrig : String) (urlNormOpts : List (String × Bool)) : UrlData
  | malformed : UrlData
deriving DecidableEq, Repr

/-- One fetched storage row (`FetchedRow`). -/
structure Row where
  rid : Nat
  time : Int
  client : Option String
  url : Option String
  urlData : Option UrlData
deriving DecidableEq, Repr

/-- One *raw result dict*.  `client` is the aggregated set of non-null
client organisation ids of the merged rows; `urlData` mirrors
`result['custom']['url_data']` (present until popped by
`_preprocess_result_dict`). -/
structure ResultDict where
  rid : Nat
  time : Int
  client : Finset String
  url : Option String
  urlData : Option UrlData
deriving DecidableEq

/-- `url.startswith(PROVISIONAL_URL_SEARCH_KEY_PREFIX)`: string prefix
test, carried out on the character lists (so that it evaluates inside
the kernel). -/
def strStartsWith (s p : String) : Bool := List.isPrefixOf p.toList s.toList

/-- `_EventsQueryProcessor._preprocess_result_dict`, embedded as a pure
function.

Parameters standing for external collaborators (all outside the
embedded source file): `provPrefix` is the constant
`PROVISIONAL_URL_SEARCH_KEY_PREFIX` from `n6lib.url_helpers`;
`normalizeUrl opts u` is `normalize_url(u, **opts)`; `b64decode` is
`base64.urlsafe_b64decode`; `paramUrls` is
`self._filtering_params.get('url.b64')`.

The per-engine `_url_normalization_data_cache` only memoizes
`(normalizer, param_urls_norm)` per sorted `url_norm_opts`; since both
are deterministic functions of the options and of the fixed
`filtering_params`, the cache is semantically transparent and the
embedding computes the cached values directly. -/
def preprocessResultDict (provPrefix : String)
    (normalizeUrl : List (String × Bool) → String → String)
    (b64decode : String → String)
    (paramUrls : Option (List String))
    (result : ResultDict) : Option ResultDict :=
  match result.urlData with
  | none =>
    match result.url with
    | some u =>
      if strStartsWith u provPrefix then
        -- `url` starts with the provisional-search-key prefix but no
        -- `url_data`: log a warning and skip this result dict
        none
      else
        -- normal case: no `url_data` and a "traditional" `url`
        some result
    | none => some result
  | some ud =>
    -- (`url_data` has been popped from `custom` at this point)
    match result.url with
    | none =>
      -- `url_data` present but no `url`: log an error and skip
      none
    | some u =>
      if ¬ strStartsWith u provPrefix then
        -- `url_data` present but `url` does not start with the
        -- provisional prefix: log an error and skip
        none
      else
        match ud with
        | .malformed =>
          -- `url_data` is not a dict with exactly the two expected
          -- keys: log an error and skip
          none
        | .wellFormed urlOrig urlNormOpts =>
          -- case of `url_data`-based matching
          let urlOrigDecoded := b64decode urlOrig
          let resultUrlNorm := normalizeUrl urlNormOpts urlOrigDecoded
          let paramUrlsNorm := paramUrls.map (fun ps => ps.map (normalizeUrl urlNormOpts))
          match paramUrlsNorm with
          | some ps =>
            if resultUrlNorm ∈ ps then
              some { result with url := some resultUrlNorm, urlData := none }
            else
              -- application-level filtering
              none
          | none => some { result with url := some resultUrlNorm, urlData := none }

/-! ### Row grouping and merging
(`generate_query_results` / `_prepare_result_production_tools`) -/

/-- Modelled from the spec: `iter_grouped_by_attr(iterable, attr)`
(from `n6lib.common_helpers`, outside the embedded source file) groups
*consecutive* elements whose `attr` values are equal, yielding the
groups in encounter order.  Embedded generically over the key
function. -/
def groupConsecBy {α β : Type} [DecidableEq β] (f : α → β) : List α → List (List α)
  | [] => []
  | r :: rs =>
    match groupConsecBy f rs with
    | [] => [[r]]
    | g :: gs =>
      if f r = f (g.headD r) then (r :: g) :: gs else [r] :: g :: gs

/-- The `presort=True` of `iter_grouped_by_attr(same_time_rows, 'id',
presort=True)`: the rows of one time-group are sorted by `id` before
being grouped (so that all rows sharing an `id` become adjacent). -/
def sortById (l : List Row) : List Row :=
  List.insertionSort (fun a b => a.rid ≤ b.rid) l

/-- The `ORDER BY event.time DESC` of
`_build_query_base_for_single_step`, applied to the rows matching one
window. -/
def sortByTimeDesc (l : List Row) : List Row :=
  List.insertionSort (fun a b => b.time ≤ a.time) l

/-- Modelled from the spec: `make_raw_result_dict(sample_row,
org_client_ids)` (from `n6lib.db_events`, outside the embedded source
file) builds a raw result dict out of one representative row's mapped
columns together with the aggregated `client` set. -/
def makeRawResultDict (sample : Row) (orgClientIds : Finset String) : ResultDict :=
  { rid := sample.rid
    time := sample.time
    client := orgClientIds
    url := sample.url
    urlData := sample.urlData }

/-- `_make_result_dict(same_id_rows)` (a helper closure defined in
`_prepare_result_production_tools`): takes the first row of the group
as the sample row and collects the set of non-`None` `client` values
of all rows of the group.  (Never called on an empty group; the `[]`
case is a dummy.) -/
def makeResultDict (sameIdRows : List Row) : ResultDict :=
  match sameIdRows with
  | [] => makeRawResultDict ⟨0, 0, none, none, none⟩ ∅
  | sample :: _ =>
    makeRawResultDict sample (sameIdRows.filterMap Row.client).toFinset

/-- `produce_result_or_none(same_id_rows)` without its counter side
effect: build the raw result dict and run it through
`_preprocess_result_dict` (given here as the abstract `pre`). -/
def produceResultOrNone (pre : ResultDict → Option ResultDict)
    (sameIdRows : List Row) : Option ResultDict :=
  pre (makeResultDict sameIdRows)

/-! ### The streaming pipeline
(`generate_query_results`, `_fetch_rows_from_db`,
`_fetch_rows_for_single_step`, `_build_actual_query`)

The run of one `generate_query_results()` call is embedded as a trace
of events: opening a window (advancing `_time_comparisons_per_step`),
executing one paginated query (`_build_actual_query` + iteration over
its rows), and yielding one result dict.  The grouping machinery's
one-element lookahead is resolved at page granularity: a time-group
still buffered when a full page ends is completed by the next page
(or by window exhaustion), exactly as the lookahead does for a static
store; this changes neither the yielded sequence nor the set of
events occurring after any given yield. -/

/-- An observable event of one engine run. -/
inductive Ev where
  | winOpen : Ev
  | pageFetch (got : Nat) : Ev
  | yieldRes (r : ResultDict) : Ev
deriving DecidableEq

/-- Terminal status of a run (or of one window's page loop). -/
inductive RunStatus where
  | exhausted : RunStatus
  | capped : RunStatus
  | errored : RunStatus
  | outOfFuel : RunStatus
deriving DecidableEq, Repr

/-- `enough_results_produced()`:
`_OPT_LIMIT is not None and _results_counter[0] >= _OPT_LIMIT`. -/
def enoughResultsProduced (optLimit : Option Nat) (count : Nat) : Bool :=
  match optLimit with
  | some n => decide (n ≤ count)
  | none => false

/-- The limit computation of `_build_actual_query`: with `opt_limit`
set, `still_expected = opt_limit - produced` must be positive (the
`assert still_expected > 0` — `.error ()` embeds the
`AssertionError`), and the query limit is `still_expected + reserve`
with `reserve = max(100, still_expected // 4)`; with no `opt_limit`
the query is unlimited. -/
def buildActualQueryLimit (optLimit : Option Nat) (producedCount : Nat) :
    Except Unit (Option Nat) :=
  match optLimit with
  | some n =>
    if producedCount < n then
      let stillExpected := n - producedCount
      let reserve := max 100 (stillExpected / 4)
      .ok (some (stillExpected + reserve))
    else
      .error ()
  | none => .ok none

/-- The inner loop of `generate_query_results` over the `id`-groups of
one time-group: produce a result (or `None`) from each group, count
and yield the produced ones, and stop as soon as
`enough_results_produced()` holds (checked after every group).
Returns the emitted events, the updated counter, and whether the run
was capped. -/
def processIdGroups (pre : ResultDict → Option ResultDict) (optLimit : Option Nat) :
    Nat → List (List Row) → List Ev × Nat × Bool
  | produced, [] => ([], produced, false)
  | produced, g :: gs =>
    match produceResultOrNone pre g with
    | some r =>
      if enoughResultsProduced optLimit (produced + 1) then
        ([Ev.yieldRes r], produced + 1, true)
      else
        let out := processIdGroups pre optLimit (produced + 1) gs
        (Ev.yieldRes r :: out.1, out.2)
    | none =>
      if enoughResultsProduced optLimit produced then
        ([], produced, true)
      else
        processIdGroups pre optLimit produced gs

/-- The outer loop of `generate_query_results` over complete
time-groups: each time-group's rows are sorted by `id`, grouped by
`id`, and handed to `processIdGroups`; a capped inner loop stops
everything. -/
def processTimeGroups (pre : ResultDict → Option ResultDict) (optLimit : Option Nat) :
    Nat → List (List Row) → List Ev × Nat × Bool
  | produced, [] => ([], produced, false)
  | produced, tg :: tgs =>
    let idGroups := groupConsecBy Row.rid (sortById tg)
    let out1 := processIdGroups pre optLimit produced idGroups
    if out1.2.2 then (out1.1, out1.2.1, true)
    else
      let out2 := processTimeGroups pre optLimit out1.2.1 tgs
      (out1.1 ++ out2.1, out2.2)

/-- `_fetch_rows_for_single_step` together with the consumption of its
rows by `generate_query_results`, for one window whose matching rows
(sorted by `time` descending) are `winRows`:

* build the page query via `buildActualQueryLimit` (an `AssertionError`
  there makes the run `errored`);
* the page is `winRows[offset : offset + limit]` (`LIMIT`/`OFFSET` on
  the static store), or all of `winRows[offset:]` when unlimited;
* if the page came back short (`got < limit`) the window is exhausted
  and every buffered time-group is complete; otherwise only the
  buffered time-groups except the last are complete, the last stays
  buffered, and the loop continues with the offset advanced by the
  rows fetched so far in this window (`cur_step_fetched_rows_count`);
* reaching `opt_limit` (`capped`) stops the loop immediately: no
  further page of this window is fetched. -/
def fetchRowsForSingleStep (pre : ResultDict → Option ResultDict) (optLimit : Option Nat)
    (winRows : List Row) :
    Nat → Nat → Nat → List Row → List Ev × Nat × RunStatus
  | 0, produced, _, _ => ([], produced, .outOfFuel)
  | fuel + 1, produced, offset, buffer =>
    match buildActualQueryLimit optLimit produced with
    | .error _ => ([], produced, .errored)
    | .ok queryLimit =>
      let page :=
        match queryLimit with
        | some lim => (winRows.drop offset).take lim
        | none => winRows.drop offset
      let got := page.length
      let newBuf := buffer ++ page
      let windowDone :=
        match queryLimit with
        | none => true
        | some lim => decide (got < lim)
      if windowDone then
        let out := processTimeGroups pre optLimit produced (groupConsecBy Row.time newBuf)
        (Ev.pageFetch got :: out.1, out.2.1, if out.2.2 then .capped else .exhausted)
      else
        let tgs := groupConsecBy Row.time newBuf
        let out1 := processTimeGroups pre optLimit produced tgs.dropLast
        if out1.2.2 then
          (Ev.pageFetch got :: out1.1, out1.2.1, .capped)
        else
          let out2 := fetchRowsForSingleStep pre optLimit winRows fuel out1.2.1
                        (offset + got) (tgs.getLast?.getD [])
          (Ev.pageFetch got :: out1.1 ++ out2.1, out2.2)

/-- Whether a window's time bounds admit the time `t`
(`lower <= t <= upper` for the inclusive first window,
`lower <= t < upper` otherwise). -/
def windowHasTime (w : TimeWindow) (t : Int) : Bool :=
  decide (w.lower ≤ t) && (if w.upperIncl then decide (t ≤ w.upper) else decide (t < w.upper))

/-- `_build_query_base_for_single_step` on the static store: the rows
matching the window's time bounds, ordered by `time` descending.
(`db` stands for the rows already matching `_build_query_base`, i.e.
the parameter, access and client filters, which are the same for every
window.) -/
def stepQueryRows (db : List Row) (w : TimeWindow) : List Row :=
  sortByTimeDesc (db.filter (fun r => windowHasTime w r.time))

/-- `_fetch_rows_from_db` together with the consumption of its rows:
iterate over the generated windows, running the single-step page loop
on each; a window ending in `exhausted` lets the next window open,
anything else (capped / errored / out of fuel) ends the run. -/
def fetchRowsFromDb (pre : ResultDict → Option ResultDict) (optLimit : Option Nat)
    (db : List Row) (pageFuel : Nat) :
    Nat → List TimeWindow → List Ev × Nat × RunStatus
  | produced, [] => ([], produced, .exhausted)
  | produced, w :: ws =>
    let winRows := stepQueryRows db w
    let out1 := fetchRowsForSingleStep pre optLimit winRows pageFuel produced 0 []
    match out1.2.2 with
    | .exhausted =>
      let out2 := fetchRowsFromDb pre optLimit db pageFuel out1.2.1 ws
      (Ev.winOpen :: out1.1 ++ out2.1, out2.2)
    | st => (Ev.winOpen :: out1.1, out1.2.1, st)

/-- `generate_query_results()`: generate the windows and stream the
results, as a trace of events plus the final counter and status. -/
def generateQueryResults (pre : ResultDict → Option ResultDict) (optLimit : Option Nat)
    (db : List Row) (timeMin : Int) (timeMax timeUntil : Option Int) (dayStep now : Int)
    (winFuel pageFuel : Nat) : List Ev × Nat × RunStatus :=
  match timeComparisonsPerStep timeMin timeMax timeUntil dayStep now winFuel with
  | none => ([], 0, .outOfFuel)
  | some ws => fetchRowsFromDb pre optLimit db pageFuel 0 ws

/-- The result dicts yielded along a trace, in order. -/
def yieldsOf (evs : List Ev) : List ResultDict :=
  evs.filterMap (fun e =>
    match e with
    | .yieldRes r => some r
    | _ => none)

/-- Whether an event is a yield (as opposed to a window opening or a
page fetch). -/
def isYieldEv : Ev → Bool
  | .yieldRes _ => true
  | _ => false

/-- The suffix of a trace strictly after its `n`-th yield event (the
whole trace if `n = 0`, `[]` if fewer than `n` yields occur). -/
def dropThroughYields : Nat → List Ev → List Ev
  | 0, evs => evs
  | _ + 1, [] => []
  | n + 1, e :: evs =>
    match e with
    | .yieldRes _ => dropThroughYields n evs
    | _ => dropThroughYields (n + 1) evs

/-- **C5** (amended). Behaviour of the secondary URL filter
`_preprocess_result_dict`:
1. a candidate whose `url` starts with the provisional-URL prefix but
   which carries no `url_data` is dropped;
2. a candidate with neither `url_data` nor a provisional-prefix `url`
   passes through unchanged;
3. a candidate carrying `url_data` whose `url` is absent or does not
   start with the provisional prefix is dropped;
4. a candidate with malformed `url_data` is dropped;
5. a candidate with well-formed `url_data` (exactly the keys
   `url_orig`, `url_norm_opts`) and a provisional-prefix `url` has its
   `url` replaced by the normalization of the decoded original URL and
   is kept — unless URL filter parameters (`url.b64`) are present and
   the normalized URL is not among their pre-normalized values, in
   which case it is dropped.
Every drop is per-record (the function returns `none` instead of
raising), so the stream is never aborted. -/
theorem claim_C5_preprocess_result_dict (provPrefix : String)
    (normalizeUrl : List (String × Bool) → String → String)
    (b64decode : String → String) (paramUrls : Option (List String)) (r : ResultDict) :
    (∀ u, r.urlData = none → r.url = some u → strStartsWith u provPrefix = true →
      preprocessResultDict provPrefix normalizeUrl b64decode paramUrls r = none) ∧
    (r.urlData = none →
      (r.url = none ∨ ∃ u, r.url = some u ∧ strStartsWith u provPrefix = false) →
      preprocessResultDict provPrefix normalizeUrl b64decode paramUrls r = some r) ∧
    (∀ ud, r.urlData = some ud →
      (r.url = none ∨ ∃ u, r.url = some u ∧ strStartsWith u provPrefix = false) →
      preprocessResultDict provPrefix normalizeUrl b64decode paramUrls r = none) ∧
    (∀ u, r.urlData = some UrlData.malformed → r.url = some u →
      strStartsWith u provPrefix = true →
      preprocessResultDict provPrefix normalizeUrl b64decode paramUrls r = none) ∧
    (∀ u urlOrig opts, r.urlData = some (UrlData.wellFormed urlOrig opts) →
      r.url = some u → strStartsWith u provPrefix = true →
      (paramUrls = none →
        preprocessResultDict provPrefix normalizeUrl b64decode paramUrls r
          = some { r with url := some (normalizeUrl opts (b64decode urlOrig)),
                          urlData := none }) ∧
      (∀ ps, paramUrls = some ps →
        (normalizeUrl opts (b64decode urlOrig) ∈ ps.map (normalizeUrl opts) →
          preprocessResultDict provPrefix normalizeUrl b64decode paramUrls r
            = some { r with url := some (normalizeUrl opts (b64decode urlOrig)),
                            urlData := none }) ∧
        (normalizeUrl opts (b64decode urlOrig) ∉ ps.map (normalizeUrl opts) →
          preprocessResultDict provPrefix normalizeUrl b64decode paramUrls r = none))) := by
  refine ⟨?_, ?_, ?_, ?_, ?_⟩
  · intro u hud hu hpre
    simp [preprocessResultDict, hud, hu, hpre]
  · intro hud hcase
    rcases hcase with hu | ⟨u, hu, hpre⟩
    · simp [preprocessResultDict, hud, hu]
    · simp [preprocessResultDict, hud, hu, hpre]
  · intro ud hud hcase
    rcases hcase with hu | ⟨u, hu, hpre⟩
    · simp [preprocessResultDict, hud, hu]
    · simp [preprocessResultDict, hud, hu, hpre]
  · intro u hud hu hpre
    simp [preprocessResultDict, hud, hu, hpre]
  · intro u urlOrig opts hud hu hpre
    constructor
    · intro hp
      simp [preprocessResultDict, hud, hu, hpre, hp]
    · intro ps hp
      constructor
      · intro hmem
        simp [preprocessResultDict, hud, hu, hpre, hp, hmem]
      · intro hmem
        simp [preprocessResultDict, hud, hu, hpre, hp, hmem]

/-- Counterexample to C5 as stated: a candidate with *well-formed*
`url_data` whose `url` does **not** start with the provisional prefix
is dropped by the code (`_preprocess_result_dict` lines 1233-1241),
whereas the claim says any candidate with well-formed `url_data` (and
no URL filter parameters) is kept with its `url` replaced. -/
theorem claim_C5_counterexample :
    preprocessResultDict "n6prov:" (fun _ u => u) (fun s => s) none
        ⟨1, 0, ∅, some "http://x", some (UrlData.wellFormed "orig" [])⟩ = none ∧
    preprocessResultDict "n6prov:" (fun _ u => u) (fun s => s) none
        ⟨1, 0, ∅, some "http://x", some (UrlData.wellFormed "orig" [])⟩
      ≠ some ⟨1, 0, ∅, some "orig", none⟩ := by
  constructor
  · rfl
  · decide

/-- Witness for C5 (amended) at concrete inputs: the well-formed,
prefix-bearing, no-URL-filter-parameters case keeps the record with
its `url` replaced by the normalized decoded original URL. -/
theorem claim_C5_preprocess_result_dict_witness :
    preprocessResultDict "p:" (fun _ u => u ++ "/") (fun s => s) none
        ⟨1, 5, ∅, some "p:abc", some (UrlData.wellFormed "e" [])⟩
      = some ⟨1, 5, ∅, some "e/", none⟩ :=
  ((claim_C5_preprocess_result_dict "p:" (fun _ u => u ++ "/") (fun s => s) none
      ⟨1, 5, ∅, some "p:abc", some (UrlData.wellFormed "e" [])⟩).2.2.2.2
    "p:abc" "e" [] rfl rfl (by decide)).1 rfl

/-! ### Properties of consecutive grouping -/

/-- Grouping partitions the list: concatenating the groups gives back
the original list. -/
theorem groupConsecBy_flatten {α β : Type} [DecidableEq β] (f : α → β) :
    ∀ l : List α, (groupConsecBy f l).flatten = l := by
  intro l
  induction l with
  | nil => rfl
  | cons r rs ih =>
    cases hg : groupConsecBy f rs with
    | nil =>
      rw [hg] at ih
      simp only [List.flatten_nil] at ih
      simp only [groupConsecBy, hg]
      simp [← ih]
    | cons g gs =>
      rw [hg] at ih
      by_cases hc : f r = f (g.headD r)
      · simp only [groupConsecBy, hg, if_pos hc]
        rw [List.flatten_cons] at ih ⊢
        simp only [List.cons_append]
        rw [ih]
      · simp only [groupConsecBy, hg, if_neg hc]
        rw [List.flatten_cons] at ih
        rw [List.flatten_cons, List.flatten_cons]
        simp only [List.singleton_append]
        rw [ih]

/-- Every group is nonempty. -/
theorem groupConsecBy_ne_nil {α β : Type} [DecidableEq β] (f : α → β) :
    ∀ l : List α, ∀ g ∈ groupConsecBy f l, g ≠ [] := by
  intro l
  induction l with
  | nil => intro g hg; simp [groupConsecBy] at hg
  | cons r rs ih =>
    intro g' hg'
    cases hg : groupConsecBy f rs with
    | nil =>
      simp only [groupConsecBy, hg] at hg'
      simp at hg'
      simp [hg']
    | cons g gs =>
      by_cases hc : f r = f (g.headD r)
      · simp only [groupConsecBy, hg, if_pos hc] at hg'
        rcases List.mem_cons.mp hg' with rfl | hmem
        · simp
        · exact ih g' (hg ▸ List.mem_cons_of_mem g hmem)
      · simp only [groupConsecBy, hg, if_neg hc] at hg'
        rcases List.mem_cons.mp hg' with rfl | hmem
        · simp
        · exact ih g' (hg ▸ hmem)

/-- All elements of one group share the same key. -/
theorem groupConsecBy_same_key {α β : Type} [DecidableEq β] (f : α → β) :
    ∀ l : List α, ∀ g ∈ groupConsecBy f l, ∀ x ∈ g, ∀ y ∈ g, f x = f y := by
  intro l
  induction l with
  | nil => intro g hg; simp [groupConsecBy] at hg
  | cons r rs ih =>
    intro g' hg' x hx y hy
    cases hg : groupConsecBy f rs with
    | nil =>
      simp only [groupConsecBy, hg] at hg'
      simp at hg'
      subst hg'
      simp at hx hy
      rw [hx, hy]
    | cons g gs =>
      by_cases hc : f r = f (g.headD r)
      · simp only [groupConsecBy, hg, if_pos hc] at hg'
        rcases List.mem_cons.mp hg' with rfl | hmem
        · -- g' = r :: g; key of every element equals f r
          have hgmem : g ∈ groupConsecBy f rs := hg ▸ List.mem_cons_self g gs
          have hkey : ∀ z ∈ g, f z = f r := by
            intro z hz
            have hne := groupConsecBy_ne_nil f rs g hgmem
            cases g with
            | nil => exact absurd rfl hne
            | cons a g'' =>
              have := ih (a :: g'') hgmem z hz a (List.mem_cons_self a g'')
              simp only [List.headD_cons] at hc
              rw [this, ← hc]
          rcases List.mem_cons.mp hx with rfl | hx' <;>
            rcases List.mem_cons.mp hy with rfl | hy'
          · rfl
          · rw [hkey y hy']
          · rw [hkey x hx']
          · rw [hkey x hx', hkey y hy']
        · exact ih g' (hg ▸ List.mem_cons_of_mem g hmem) x hx y hy
      · simp only [groupConsecBy, hg, if_neg hc] at hg'
        rcases List.mem_cons.mp hg' with rfl | hmem
        · simp at hx hy
          rw [hx, hy]
        · exact ih g' (hg ▸ hmem) x hx y hy

/-- Elements of a group are elements of the grouped list. -/
theorem groupConsecBy_mem {α β : Type} [DecidableEq β] (f : α → β) (l : List α)
    (g : List α) (hg : g ∈ groupConsecBy f l) (x : α) (hx : x ∈ g) : x ∈ l := by
  rw [← groupConsecBy_flatten f l]
  exact List.mem_flatten.mpr ⟨g, hg, hx⟩

/-- On a list sorted (weakly) by key, the groups carry strictly
"decreasing" keys: every element of a later group relates to every
element of an earlier group by the strict order `ltKey`. -/
theorem groupConsecBy_pairwise {α β : Type} [DecidableEq β] (f : α → β)
    (ltKey : β → β → Prop)
    (htrans : ∀ a b c, ltKey a b → ltKey b c → ltKey a c) :
    ∀ l : List α, l.Pairwise (fun a b => ltKey (f b) (f a) ∨ f b = f a) →
      (groupConsecBy f l).Pairwise (fun g g' => ∀ x ∈ g, ∀ y ∈ g', ltKey (f y) (f x)) := by
  intro l
  induction l with
  | nil => intro _; simp [groupConsecBy]
  | cons r rs ih =>
    intro hsorted
    rcases List.pairwise_cons.mp hsorted with ⟨hr, hs⟩
    have ihp := ih hs
    cases hg : groupConsecBy f rs with
    | nil => simp [groupConsecBy, hg]
    | cons g gs =>
      rw [hg] at ihp
      rcases List.pairwise_cons.mp ihp with ⟨hhead, htail⟩
      have hgne : g ≠ [] := groupConsecBy_ne_nil f rs g (hg ▸ List.mem_cons_self g gs)
      obtain ⟨a, g', rfl⟩ : ∃ a g', g = a :: g' := by
        cases g with
        | nil => exact absurd rfl hgne
        | cons a g' => exact ⟨a, g', rfl⟩
      by_cases hc : f r = f ((a :: g').headD r)
      · simp only [List.headD_cons] at hc
        simp only [groupConsecBy, hg, List.headD_cons, if_pos hc]
        refine List.pairwise_cons.mpr ⟨?_, htail⟩
        intro g'' hg'' x hx y hy
        rcases List.mem_cons.mp hx with rfl | hx'
        · have := hhead g'' hg'' a (List.mem_cons_self a g') y hy
          rw [hc]
          exact this
        · exact hhead g'' hg'' x hx' y hy
      · simp only [List.headD_cons] at hc
        simp only [groupConsecBy, hg, List.headD_cons, if_neg hc]
        refine List.pairwise_cons.mpr ⟨?_, ihp⟩
        intro g'' hg'' x hx y hy
        simp only [List.mem_singleton] at hx
        rw [hx]
        have hamem : a ∈ rs :=
          groupConsecBy_mem f rs (a :: g') (hg ▸ List.mem_cons_self _ gs) a
            (List.mem_cons_self a g')
        have hra : ltKey (f a) (f r) := by
          rcases hr a hamem with h | h
          · exact h
          · exact absurd h.symm hc
        rcases List.mem_cons.mp hg'' with rfl | hg''
        · -- y in the adjacent group: key equals f a
          have hsame := groupConsecBy_same_key f rs (a :: g')
            (hg ▸ List.mem_cons_self _ gs) y hy a (List.mem_cons_self a g')
          rw [hsame]
          exact hra
        · -- y in a later group: strict chain through f a
          have := hhead g'' hg'' a (List.mem_cons_self a g') y hy
          exact htrans (f y) (f a) (f r) this hra

/-- In a pairwise strictly ordered partition with constant keys per
group, filtering the concatenation for the key of one member of a
group `g` returns exactly `g` (each key belongs to exactly one
group). -/
theorem partition_filter_eq {α β : Type} [DecidableEq β] (f : α → β)
    (ltKey : β → β → Prop) (hirr : ∀ a, ¬ ltKey a a) :
    ∀ (groups : List (List α)) (g : List α) (x0 : α),
      groups.Pairwise (fun g g' => ∀ x ∈ g, ∀ y ∈ g', ltKey (f y) (f x)) →
      (∀ g' ∈ groups, ∀ x ∈ g', ∀ y ∈ g', f x = f y) →
      g ∈ groups → x0 ∈ g →
      groups.flatten.filter (fun y => decide (f y = f x0)) = g := by
  intro groups
  induction groups with
  | nil => intro g x0 _ _ hg; simp at hg
  | cons g1 rest ih =>
    intro g x0 hpw hsame hg hx0
    rcases List.pairwise_cons.mp hpw with ⟨h1, hrest⟩
    rw [List.flatten_cons, List.filter_append]
    rcases List.mem_cons.mp hg with rfl | hgr
    · have hfil1 : g.filter (fun y => decide (f y = f x0)) = g := by
        refine List.filter_eq_self.mpr ?_
        intro y hy
        simp only [decide_eq_true_eq]
        exact hsame g (List.mem_cons_self g rest) y hy x0 hx0
      have hfil2 : rest.flatten.filter (fun y => decide (f y = f x0)) = [] := by
        refine List.filter_eq_nil_iff.mpr ?_
        intro y hy
        rcases List.mem_flatten.mp hy with ⟨g', hg', hyg'⟩
        simp only [decide_eq_true_eq]
        intro heq
        have := h1 g' hg' x0 hx0 y hyg'
        rw [heq] at this
        exact hirr (f x0) this
      rw [hfil1, hfil2, List.append_nil]
    · have hfil1 : g1.filter (fun y => decide (f y = f x0)) = [] := by
        refine List.filter_eq_nil_iff.mpr ?_
        intro y hy
        simp only [decide_eq_true_eq]
        intro heq
        have := h1 g hgr y hy x0 hx0
        rw [heq] at this
        exact hirr (f x0) this
      rw [hfil1, List.nil_append]
      exact ih g x0 hrest (fun g' hg' => hsame g' (List.mem_cons_of_mem g1 hg')) hgr hx0

instance : IsTotal Row (fun a b => a.rid ≤ b.rid) := ⟨fun a b => Nat.le_total a.rid b.rid⟩

instance : IsTrans Row (fun a b => a.rid ≤ b.rid) := ⟨fun _ _ _ h1 h2 => Nat.le_trans h1 h2⟩

instance : IsTotal Row (fun a b => b.time ≤ a.time) := ⟨fun a b => le_total b.time a.time⟩

instance : IsTrans Row (fun a b => b.time ≤ a.time) := ⟨fun _ _ _ h1 h2 => le_trans h2 h1⟩

/-- The `id`-presort produces a list weakly ascending in `rid`. -/
theorem sortById_sorted (l : List Row) :
    (sortById l).Pairwise (fun a b => a.rid ≤ b.rid) :=
  List.sorted_insertionSort _ l

/-- The `id`-presort permutes the rows. -/
theorem sortById_perm (l : List Row) : List.Perm (sortById l) l :=
  List.perm_insertionSort _ l

/-- `ORDER BY time DESC` produces a list weakly descending in `time`. -/
theorem sortByTimeDesc_sorted (l : List Row) :
    (sortByTimeDesc l).Pairwise (fun a b => b.time ≤ a.time) :=
  List.sorted_insertionSort _ l

/-- The descending time sort permutes the rows. -/
theorem sortByTimeDesc_perm (l : List Row) : List.Perm (sortByTimeDesc l) l :=
  List.perm_insertionSort _ l

/-- **C4.** Fetched rows grouped consecutively by equal `time`, then —
after sorting by `id` within the time-group — grouped by `id`: every
such `id`-group is nonempty, its time-group has one common `time`, all
its rows carry one common `id`, it contains *exactly* the rows of the
time-group carrying that `id` (so each `id` is merged into exactly one
result dict), and `_make_result_dict` merges it into one result dict
taking the non-varying attributes from the group's first row, with the
`client` attribute equal to the set of all non-null `client` values
among the time-group's rows with that `id`. -/
theorem claim_C4_row_merging (rows tg g : List Row)
    (htg : tg ∈ groupConsecBy Row.time rows)
    (hg : g ∈ groupConsecBy Row.rid (sortById tg)) :
    g ≠ [] ∧
    (∀ x ∈ tg, ∀ y ∈ tg, x.time = y.time) ∧
    (∀ x ∈ g, ∀ y ∈ g, x.rid = y.rid) ∧
    (∀ x ∈ g, g = (sortById tg).filter (fun y => decide (y.rid = x.rid))) ∧
    (∀ x ∈ g, makeResultDict g
      = makeRawResultDict (g.headD x)
          (((tg.filter (fun y => decide (y.rid = x.rid))).filterMap Row.client).toFinset)) := by
  have hne : g ≠ [] := groupConsecBy_ne_nil Row.rid (sortById tg) g hg
  have hsametime : ∀ x ∈ tg, ∀ y ∈ tg, x.time = y.time :=
    groupConsecBy_same_key Row.time rows tg htg
  have hsameid : ∀ x ∈ g, ∀ y ∈ g, x.rid = y.rid :=
    groupConsecBy_same_key Row.rid (sortById tg) g hg
  have hpw : (groupConsecBy Row.rid (sortById tg)).Pairwise
      (fun g g' => ∀ x ∈ g, ∀ y ∈ g', (fun u v : Nat => v < u) y.rid x.rid) := by
    refine groupConsecBy_pairwise Row.rid (fun u v => v < u)
      (fun a b c h1 h2 => Nat.lt_trans h2 h1) (sortById tg) ?_
    refine (sortById_sorted tg).imp ?_
    intro a b hab
    rcases Nat.lt_or_eq_of_le hab with h | h
    · exact Or.inl h
    · exact Or.inr h.symm
  have hfil : ∀ x ∈ g, (sortById tg).filter (fun y => decide (y.rid = x.rid)) = g := by
    intro x hx
    have := partition_filter_eq Row.rid (fun u v => v < u)
      (fun a => Nat.lt_irrefl a) (groupConsecBy Row.rid (sortById tg)) g x hpw
      (fun g' hg' => groupConsecBy_same_key Row.rid (sortById tg) g' hg') hg hx
    rw [groupConsecBy_flatten Row.rid (sortById tg)] at this
    exact this
  refine ⟨hne, hsametime, hsameid, fun x hx => (hfil x hx).symm, ?_⟩
  intro x hx
  obtain ⟨sample, rest, rfl⟩ : ∃ sample rest, g = sample :: rest := by
    cases g with
    | nil => exact absurd rfl hne
    | cons sample rest => exact ⟨sample, rest, rfl⟩
  have hclients :
      ((sample :: rest).filterMap Row.client).toFinset
        = ((tg.filter (fun y => decide (y.rid = x.rid))).filterMap Row.client).toFinset := by
    have hperm : List.Perm (sample :: rest) (tg.filter (fun y => decide (y.rid = x.rid))) := by
      have h1 : (sample :: rest)
          = (sortById tg).filter (fun y => decide (y.rid = x.rid)) := (hfil x hx).symm
      rw [h1]
      exact (sortById_perm tg).filter _
    refine Finset.ext ?_
    intro c
    simp only [List.mem_toFinset]
    exact (hperm.filterMap Row.client).mem_iff
  simp only [makeResultDict, List.headD_cons]
  rw [hclients]

/-- Two storage rows with the same `id` and `time` but different
non-null `client` values, used to witness the merge. -/
def mergeRowA : Row := ⟨7, 100, some "a", none, none⟩

/-- Second of the two rows (same `id`/`time`, other `client`). -/
def mergeRowB : Row := ⟨7, 100, some "b", none, none⟩

/-- Witness for C4 at a concrete input: the two rows merge into one
result dict whose `client` set is the union `{"a", "b"}`. -/
theorem claim_C4_row_merging_witness :
    makeResultDict [mergeRowA, mergeRowB]
      = makeRawResultDict mergeRowA
          ((([mergeRowA, mergeRowB].filter
              (fun y => decide (y.rid = mergeRowA.rid))).filterMap Row.client).toFinset) ∧
    (makeResultDict [mergeRowA, mergeRowB]).client = {"a", "b"} :=
  ⟨(claim_C4_row_merging [mergeRowA, mergeRowB] [mergeRowA, mergeRowB]
      [mergeRowA, mergeRowB] (by decide) (by decide)).2.2.2.2 mergeRowA (by decide),
   by decide⟩

/-! ### Counting and cap lemmas for the pipeline (claim C1) -/

theorem yieldsOf_append (a b : List Ev) : yieldsOf (a ++ b) = yieldsOf a ++ yieldsOf b :=
  List.filterMap_append a b _

theorem yieldsOf_cons_yield (r : ResultDict) (evs : List Ev) :
    yieldsOf (Ev.yieldRes r :: evs) = r :: yieldsOf evs := rfl

theorem yieldsOf_cons_winOpen (evs : List Ev) :
    yieldsOf (Ev.winOpen :: evs) = yieldsOf evs := rfl

theorem yieldsOf_cons_pageFetch (g : Nat) (evs : List Ev) :
    yieldsOf (Ev.pageFetch g :: evs) = yieldsOf evs := rfl

theorem dropThroughYields_cons_yield (n : Nat) (r : ResultDict) (evs : List Ev) :
    dropThroughYields (n + 1) (Ev.yieldRes r :: evs) = dropThroughYields n evs := rfl

theorem dropThroughYields_cons_winOpen (n : Nat) (evs : List Ev) :
    dropThroughYields (n + 1) (Ev.winOpen :: evs) = dropThroughYields (n + 1) evs := rfl

theorem dropThroughYields_cons_pageFetch (n g : Nat) (evs : List Ev) :
    dropThroughYields (n + 1) (Ev.pageFetch g :: evs) = dropThroughYields (n + 1) evs := rfl

/-- Dropping through the yields of a first trace segment and then
through `k2 ≥ 1` more yields equals dropping through `k2` yields of
the second segment. -/
theorem dropThroughYields_append (k2 : Nat) (hk2 : 1 ≤ k2) :
    ∀ (evs1 : List Ev) (k1 : Nat) (evs2 : List Ev),
      (yieldsOf evs1).length = k1 →
      dropThroughYields (k1 + k2) (evs1 ++ evs2) = dropThroughYields k2 evs2 := by
  intro evs1
  induction evs1 with
  | nil =>
    intro k1 evs2 h
    simp only [yieldsOf, List.filterMap_nil, List.length_nil] at h
    subst h
    simp
  | cons e evs1' ih =>
    intro k1 evs2 h
    cases e with
    | yieldRes r =>
      rw [yieldsOf_cons_yield] at h
      simp only [List.length_cons] at h
      subst h
      have harith : (yieldsOf evs1').length + 1 + k2
          = ((yieldsOf evs1').length + k2) + 1 := by omega
      rw [List.cons_append, harith, dropThroughYields_cons_yield]
      exact ih _ evs2 rfl
    | winOpen =>
      rw [yieldsOf_cons_winOpen] at h
      subst h
      obtain ⟨m, hm⟩ : ∃ m, (yieldsOf evs1').length + k2 = m + 1 :=
        ⟨(yieldsOf evs1').length + k2 - 1, by omega⟩
      rw [List.cons_append, hm, dropThroughYields_cons_winOpen, ← hm]
      exact ih _ evs2 rfl
    | pageFetch g =>
      rw [yieldsOf_cons_pageFetch] at h
      subst h
      obtain ⟨m, hm⟩ : ∃ m, (yieldsOf evs1').length + k2 = m + 1 :=
        ⟨(yieldsOf evs1').length + k2 - 1, by omega⟩
      rw [List.cons_append, hm, dropThroughYields_cons_pageFetch, ← hm]
      exact ih _ evs2 rfl

/-- The counter of `processIdGroups` advances exactly by the number of
yields it emits. -/
theorem processIdGroups_count (pre : ResultDict → Option ResultDict) (optLimit : Option Nat) :
    ∀ (gs : List (List Row)) (produced : Nat),
      (processIdGroups pre optLimit produced gs).2.1
        = produced + (yieldsOf (processIdGroups pre optLimit produced gs).1).length := by
  intro gs
  induction gs with
  | nil => intro produced; simp [processIdGroups, yieldsOf]
  | cons g gs ih =>
    intro produced
    simp only [processIdGroups]
    cases hpro : produceResultOrNone pre g with
    | some r =>
      cases henough : enoughResultsProduced optLimit (produced + 1) with
      | true => simp [henough, yieldsOf]
      | false =>
        simp only [henough, Bool.false_eq_true, if_false]
        rw [yieldsOf_cons_yield]
        simp only [List.length_cons]
        have := ih (produced + 1)
        omega
    | none =>
      cases henough : enoughResultsProduced optLimit produced with
      | true => simp [henough, yieldsOf]
      | false =>
        simp only [henough, Bool.false_eq_true, if_false]
        exact ih produced

/-- Cap behaviour of `processIdGroups` under `opt_limit = N`, entered
with `produced < N`: the counter never exceeds `N`; if it reports
*capped* the counter is exactly `N` and the emitted trace ends at the
`(N - produced)`-th yield; if not capped the counter is still `< N`. -/
theorem processIdGroups_capped (pre : ResultDict → Option ResultDict) (N : Nat) :
    ∀ (gs : List (List Row)) (produced : Nat), produced < N →
      (processIdGroups pre (some N) produced gs).2.1 ≤ N ∧
      ((processIdGroups pre (some N) produced gs).2.2 = true →
        (processIdGroups pre (some N) produced gs).2.1 = N ∧
        dropThroughYields (N - produced) (processIdGroups pre (some N) produced gs).1 = []) ∧
      ((processIdGroups pre (some N) produced gs).2.2 = false →
        (processIdGroups pre (some N) produced gs).2.1 < N) := by
  intro gs
  induction gs with
  | nil =>
    intro produced hlt
    refine ⟨le_of_lt hlt, ?_, fun _ => hlt⟩
    intro h
    simp [processIdGroups] at h
  | cons g gs ih =>
    intro produced hlt
    simp only [processIdGroups]
    cases hpro : produceResultOrNone pre g with
    | some r =>
      cases henough : enoughResultsProduced (some N) (produced + 1) with
      | true =>
        simp only [henough, if_true]
        simp only [enoughResultsProduced, decide_eq_true_eq, decide_eq_false_iff_not] at henough
        have heq : produced + 1 = N := by omega
        refine ⟨by omega, fun _ => ⟨heq, ?_⟩, by simp⟩
        have : N - produced = 1 := by omega
        rw [this]
        rfl
      | false =>
        simp only [henough, Bool.false_eq_true, if_false]
        simp only [enoughResultsProduced, decide_eq_true_eq, decide_eq_false_iff_not] at henough
        have hlt' : produced + 1 < N := by omega
        rcases ih (produced + 1) hlt' with ⟨hle, hcap, hnotcap⟩
        refine ⟨hle, ?_, hnotcap⟩
        intro hc
        refine ⟨(hcap hc).1, ?_⟩
        obtain ⟨m, hm⟩ : ∃ m, N - produced = m + 1 := ⟨N - produced - 1, by omega⟩
        have hm' : m = N - (produced + 1) := by omega
        rw [hm, dropThroughYields_cons_yield, hm']
        exact (hcap hc).2
    | none =>
      cases henough : enoughResultsProduced (some N) produced with
      | true =>
        simp only [enoughResultsProduced, decide_eq_true_eq, decide_eq_false_iff_not] at henough
        omega
      | false =>
        simp only [henough, Bool.false_eq_true, if_false]
        exact ih produced hlt

/-- The counter of `processTimeGroups` advances exactly by the number
of yields it emits. -/
theorem processTimeGroups_count (pre : ResultDict → Option ResultDict) (optLimit : Option Nat) :
    ∀ (tgs : List (List Row)) (produced : Nat),
      (processTimeGroups pre optLimit produced tgs).2.1
        = produced + (yieldsOf (processTimeGroups pre optLimit produced tgs).1).length := by
  intro tgs
  induction tgs with
  | nil => intro produced; simp [processTimeGroups, yieldsOf]
  | cons tg tgs ih =>
    intro produced
    simp only [processTimeGroups]
    cases hcap : (processIdGroups pre optLimit produced
        (groupConsecBy Row.rid (sortById tg))).2.2 with
    | true =>
      simp only [hcap, if_true]
      exact processIdGroups_count pre optLimit _ produced
    | false =>
      simp only [hcap, Bool.false_eq_true, if_false]
      rw [yieldsOf_append, List.length_append]
      have h1 := processIdGroups_count pre optLimit
        (groupConsecBy Row.rid (sortById tg)) produced
      have h2 := ih (processIdGroups pre optLimit produced
        (groupConsecBy Row.rid (sortById tg))).2.1
      omega

/-- Cap behaviour of `processTimeGroups` under `opt_limit = N`,
entered with `produced < N` (analogous to `processIdGroups_capped`,
composed over the time-groups). -/
theorem processTimeGroups_capped (pre : ResultDict → Option ResultDict) (N : Nat) :
    ∀ (tgs : List (List Row)) (produced : Nat), produced < N →
      (processTimeGroups pre (some N) produced tgs).2.1 ≤ N ∧
      ((processTimeGroups pre (some N) produced tgs).2.2 = true →
        (processTimeGroups pre (some N) produced tgs).2.1 = N ∧
        dropThroughYields (N - produced) (processTimeGroups pre (some N) produced tgs).1 = []) ∧
      ((processTimeGroups pre (some N) produced tgs).2.2 = false →
        (processTimeGroups pre (some N) produced tgs).2.1 < N) := by
  intro tgs
  induction tgs with
  | nil =>
    intro produced hlt
    refine ⟨le_of_lt hlt, ?_, fun _ => hlt⟩
    intro h
    simp [processTimeGroups] at h
  | cons tg tgs ih =>
    intro produced hlt
    simp only [processTimeGroups]
    rcases processIdGroups_capped pre N (groupConsecBy Row.rid (sortById tg)) produced hlt
      with ⟨hle1, hcap1, hnot1⟩
    cases hcap : (processIdGroups pre (some N) produced
        (groupConsecBy Row.rid (sortById tg))).2.2 with
    | true =>
      simp only [hcap, if_true]
      exact ⟨hle1, fun _ => hcap1 hcap, by simp⟩
    | false =>
      simp only [hcap, Bool.false_eq_true, if_false]
      have hlt1 := hnot1 hcap
      rcases ih _ hlt1 with ⟨hle2, hcap2, hnot2⟩
      refine ⟨hle2, ?_, hnot2⟩
      intro hc
      refine ⟨(hcap2 hc).1, ?_⟩
      have hcount1 := processIdGroups_count pre (some N)
        (groupConsecBy Row.rid (sortById tg)) produced
      set p1 := (processIdGroups pre (some N) produced
        (groupConsecBy Row.rid (sortById tg))).2.1 with hp1
      have hsplit : N - produced = (yieldsOf (processIdGroups pre (some N) produced
          (groupConsecBy Row.rid (sortById tg))).1).length + (N - p1) := by omega
      rw [hsplit]
      rw [dropThroughYields_append (N - p1) (by omega) _ _ _ rfl]
      exact (hcap2 hc).2

theorem fetchRowsForSingleStep_spec (pre : ResultDict → Option ResultDict) (N : Nat)
    (winRows : List Row) :
    ∀ (fuel : Nat) (produced offset : Nat) (buffer : List Row), produced < N →
      (fetchRowsForSingleStep pre (some N) winRows fuel produced offset buffer).2.1
        = produced + (yieldsOf (fetchRowsForSingleStep pre (some N) winRows fuel
            produced offset buffer).1).length ∧
      (fetchRowsForSingleStep pre (some N) winRows fuel produced offset buffer).2.1 ≤ N ∧
      ((fetchRowsForSingleStep pre (some N) winRows fuel produced offset buffer).2.2
          = RunStatus.capped →
        (fetchRowsForSingleStep pre (some N) winRows fuel produced offset buffer).2.1 = N ∧
        dropThroughYields (N - produced)
          (fetchRowsForSingleStep pre (some N) winRows fuel produced offset buffer).1 = []) ∧
      ((fetchRowsForSingleStep pre (some N) winRows fuel produced offset buffer).2.2
          = RunStatus.exhausted →
        (fetchRowsForSingleStep pre (some N) winRows fuel produced offset buffer).2.1 < N) ∧
      (fetchRowsForSingleStep pre (some N) winRows fuel produced offset buffer).2.2
          ≠ RunStatus.errored := by
  intro fuel
  induction fuel with
  | zero =>
    intro produced offset buffer hlt
    simp only [fetchRowsForSingleStep]
    refine ⟨by simp [yieldsOf], le_of_lt hlt, ?_, ?_, ?_⟩
    · intro h; simp at h
    · intro h; simp at h
    · simp
  | succ n ih =>
    intro produced offset buffer hlt
    have hbq : buildActualQueryLimit (some N) produced
        = Except.ok (some (N - produced + max 100 ((N - produced) / 4))) := by
      simp [buildActualQueryLimit, hlt]
    simp only [fetchRowsForSingleStep, hbq]
    set lim := N - produced + max 100 ((N - produced) / 4) with hlim
    set page := (winRows.drop offset).take lim with hpage
    by_cases hgot : page.length < lim
    · simp only [decide_eq_true hgot, if_true]
      rcases processTimeGroups_capped pre N (groupConsecBy Row.time (buffer ++ page))
          produced hlt with ⟨hle, hcapl, hnotl⟩
      have hcount := processTimeGroups_count pre (some N)
        (groupConsecBy Row.time (buffer ++ page)) produced
      cases hcap : (processTimeGroups pre (some N) produced
          (groupConsecBy Row.time (buffer ++ page))).2.2 with
      | true =>
        simp only [hcap, if_true]
        refine ⟨?_, hle, ?_, ?_, ?_⟩
        · rw [yieldsOf_cons_pageFetch]; exact hcount
        · intro _
          refine ⟨(hcapl hcap).1, ?_⟩
          obtain ⟨m, hm⟩ : ∃ m, N - produced = m + 1 := ⟨N - produced - 1, by omega⟩
          rw [hm, dropThroughYields_cons_pageFetch, ← hm]
          exact (hcapl hcap).2
        · intro h; simp at h
        · simp
      | false =>
        simp only [hcap, Bool.false_eq_true, if_false]
        refine ⟨?_, hle, ?_, fun _ => hnotl hcap, ?_⟩
        · rw [yieldsOf_cons_pageFetch]; exact hcount
        · intro h; simp at h
        · simp
    · simp only [decide_eq_false hgot, Bool.false_eq_true, if_false]
      rcases processTimeGroups_capped pre N
          (groupConsecBy Row.time (buffer ++ page)).dropLast produced hlt
        with ⟨hle1, hcapl1, hnotl1⟩
      have hcount1 := processTimeGroups_count pre (some N)
        (groupConsecBy Row.time (buffer ++ page)).dropLast produced
      cases hcap : (processTimeGroups pre (some N) produced
          (groupConsecBy Row.time (buffer ++ page)).dropLast).2.2 with
      | true =>
        simp only [hcap, if_true]
        refine ⟨?_, hle1, ?_, ?_, ?_⟩
        · rw [yieldsOf_cons_pageFetch]; exact hcount1
        · intro _
          refine ⟨(hcapl1 hcap).1, ?_⟩
          obtain ⟨m, hm⟩ : ∃ m, N - produced = m + 1 := ⟨N - produced - 1, by omega⟩
          rw [hm, dropThroughYields_cons_pageFetch, ← hm]
          exact (hcapl1 hcap).2
        · intro h; simp at h
        · simp
      | false =>
        simp only [hcap, Bool.false_eq_true, if_false]
        have hlt1 := hnotl1 hcap
        rcases ih (processTimeGroups pre (some N) produced
            (groupConsecBy Row.time (buffer ++ page)).dropLast).2.1
            (offset + page.length)
            ((groupConsecBy Row.time (buffer ++ page)).getLast?.getD []) hlt1
          with ⟨ihc, ihle, ihcap, ihexh, iherr⟩
        refine ⟨?_, ihle, ?_, ihexh, iherr⟩
        · rw [List.cons_append, yieldsOf_cons_pageFetch, yieldsOf_append, List.length_append]
          simp only [← hpage]
          omega
        · intro hst
          rcases ihcap hst with ⟨hN2, hdrop2⟩
          refine ⟨hN2, ?_⟩
          obtain ⟨m, hm⟩ : ∃ m, N - produced = m + 1 := ⟨N - produced - 1, by omega⟩
          rw [List.cons_append, hm, dropThroughYields_cons_pageFetch, ← hm]
          have hsplit : N - produced
              = (yieldsOf (processTimeGroups pre (some N) produced
                  (groupConsecBy Row.time (buffer ++ page)).dropLast).1).length
                + (N - (processTimeGroups pre (some N) produced
                    (groupConsecBy Row.time (buffer ++ page)).dropLast).2.1) := by omega
          rw [hsplit, dropThroughYields_append _ (by omega) _ _ _ rfl]
          exact hdrop2

/-- Cap behaviour of the whole window iteration `fetchRowsFromDb`
under `opt_limit = N`: entered with `produced < N`, the counter equals
`produced` plus the number of yields and never exceeds `N`; a *capped*
run ends exactly at the `(N - produced)`-th yield with counter `N`; an
*exhausted* run (all windows drained) ends with counter `< N`; the
assertion in `_build_actual_query` never fires. -/
theorem fetchRowsFromDb_spec (pre : ResultDict → Option ResultDict) (N : Nat)
    (db : List Row) (pageFuel : Nat) :
    ∀ (ws : List TimeWindow) (produced : Nat), produced < N →
      (fetchRowsFromDb pre (some N) db pageFuel produced ws).2.1
        = produced
          + (yieldsOf (fetchRowsFromDb pre (some N) db pageFuel produced ws).1).length ∧
      (fetchRowsFromDb pre (some N) db pageFuel produced ws).2.1 ≤ N ∧
      ((fetchRowsFromDb pre (some N) db pageFuel produced ws).2.2 = RunStatus.capped →
        (fetchRowsFromDb pre (some N) db pageFuel produced ws).2.1 = N ∧
        dropThroughYields (N - produced)
          (fetchRowsFromDb pre (some N) db pageFuel produced ws).1 = []) ∧
      ((fetchRowsFromDb pre (some N) db pageFuel produced ws).2.2 = RunStatus.exhausted →
        (fetchRowsFromDb pre (some N) db pageFuel produced ws).2.1 < N) ∧
      (fetchRowsFromDb pre (some N) db pageFuel produced ws).2.2 ≠ RunStatus.errored := by
  intro ws
  induction ws with
  | nil =>
    intro produced hlt
    simp only [fetchRowsFromDb]
    refine ⟨by simp [yieldsOf], le_of_lt hlt, ?_, fun _ => hlt, ?_⟩
    · intro h; simp at h
    · simp
  | cons w ws ih =>
    intro produced hlt
    simp only [fetchRowsFromDb]
    rcases fetchRowsForSingleStep_spec pre N (stepQueryRows db w) pageFuel produced 0 [] hlt
      with ⟨hc1, hle1, hcap1, hexh1, herr1⟩
    cases hst : (fetchRowsForSingleStep pre (some N) (stepQueryRows db w)
        pageFuel produced 0 []).2.2 with
    | exhausted =>
      simp only [hst]
      have hlt1 := hexh1 hst
      rcases ih _ hlt1 with ⟨ihc, ihle, ihcap, ihexh, iherr⟩
      refine ⟨?_, ihle, ?_, ihexh, iherr⟩
      · rw [List.cons_append, yieldsOf_cons_winOpen, yieldsOf_append, List.length_append]
        omega
      · intro hc
        rcases ihcap hc with ⟨hN2, hdrop2⟩
        refine ⟨hN2, ?_⟩
        obtain ⟨m, hm⟩ : ∃ m, N - produced = m + 1 := ⟨N - produced - 1, by omega⟩
        rw [List.cons_append, hm, dropThroughYields_cons_winOpen, ← hm]
        have hsplit : N - produced
            = (yieldsOf (fetchRowsForSingleStep pre (some N) (stepQueryRows db w)
                pageFuel produced 0 []).1).length
              + (N - (fetchRowsForSingleStep pre (some N) (stepQueryRows db w)
                  pageFuel produced 0 []).2.1) := by omega
        rw [hsplit, dropThroughYields_append _ (by omega) _ _ _ rfl]
        exact hdrop2
    | capped =>
      simp only [hst]
      refine ⟨?_, hle1, ?_, ?_, ?_⟩
      · rw [yieldsOf_cons_winOpen]; exact hc1
      · intro _
        refine ⟨(hcap1 hst).1, ?_⟩
        obtain ⟨m, hm⟩ : ∃ m, N - produced = m + 1 := ⟨N - produced - 1, by omega⟩
        rw [hm, dropThroughYields_cons_winOpen, ← hm]
        exact (hcap1 hst).2
      · intro h; simp at h
      · simp
    | errored => exact absurd hst (herr1 ·)
    | outOfFuel =>
      simp only [hst]
      refine ⟨?_, hle1, ?_, ?_, ?_⟩
      · rw [yieldsOf_cons_winOpen]; exact hc1
      · intro h; simp at h
      · intro h; simp at h
      · simp

/-- **C1** (amended: `opt_limit = N ≥ 1`; see the counterexample for
`N = 0`). For every result cap `opt_limit = N ≥ 1`, a run of
`generate_query_results()` yields at most `N` result dicts; if it ends
*capped* it yielded exactly `N`, the produced count equals `opt_limit`,
and it terminated immediately: the trace contains nothing — in
particular no page fetch and no window opening — after the `N`-th
yield; if it ends with all windows exhausted, the produced count is
strictly less than `N`. -/
theorem claim_C1_opt_limit_cap (pre : ResultDict → Option ResultDict) (N : Nat)
    (db : List Row) (timeMin : Int) (timeMax timeUntil : Option Int) (dayStep now : Int)
    (winFuel pageFuel : Nat) (out : List Ev × Nat × RunStatus)
    (hN : 1 ≤ N)
    (hout : generateQueryResults pre (some N) db timeMin timeMax timeUntil dayStep now
      winFuel pageFuel = out) :
    (yieldsOf out.1).length ≤ N ∧
    (out.2.2 = RunStatus.capped →
      (yieldsOf out.1).length = N ∧ out.2.1 = N ∧
      dropThroughYields N out.1 = [] ∧
      ∀ e ∈ dropThroughYields N out.1, isYieldEv e = true) ∧
    (out.2.2 = RunStatus.exhausted → (yieldsOf out.1).length < N) ∧
    out.2.2 ≠ RunStatus.errored := by
  subst hout
  cases hws : timeComparisonsPerStep timeMin timeMax timeUntil dayStep now winFuel with
  | none =>
    simp only [generateQueryResults, hws]
    refine ⟨by simp [yieldsOf], ?_, ?_, ?_⟩
    · intro h; simp at h
    · intro h; simp at h
    · simp
  | some ws =>
    simp only [generateQueryResults, hws]
    rcases fetchRowsFromDb_spec pre N db pageFuel ws 0 hN with ⟨hc, hle, hcap, hexh, herr⟩
    refine ⟨by omega, ?_, by intro h; have := hexh h; omega, herr⟩
    intro h
    rcases hcap h with ⟨hN2, hdrop⟩
    have hysum : (yieldsOf (fetchRowsFromDb pre (some N) db pageFuel 0 ws).1).length = N := by
      omega
    have hdrop' : dropThroughYields N (fetchRowsFromDb pre (some N) db pageFuel 0 ws).1 = [] := by
      have : N - 0 = N := by omega
      rw [← this]
      exact hdrop
    refine ⟨hysum, hN2, hdrop', ?_⟩
    intro e he
    rw [hdrop'] at he
    simp at he

/-- The concrete run used as counterexample to C1 as stated, with
`opt_limit = 0`: an empty store, `time_min = 0`, `time_max = 86400`,
`day_step = 1`. -/
def c1CounterexampleRun : List Ev × Nat × RunStatus :=
  generateQueryResults (fun r => some r) (some 0) [] 0 (some 86400) none 1 0 5 5

/-- Counterexample to C1 as stated (`opt_limit = N ≥ 0`): with
`opt_limit = 0` the run has already yielded exactly `N = 0` results
before it starts, yet it still opens the first window (a `winOpen`
event occurs after the `0`-th yield), and then the
`assert still_expected > 0` of `_build_actual_query` fires
(`AssertionError`), so the run ends `errored` instead of terminating
immediately with no further window openings. -/
theorem claim_C1_counterexample :
    (yieldsOf c1CounterexampleRun.1).length = 0 ∧
    c1CounterexampleRun.2.2 = RunStatus.errored ∧
    ¬ (∀ e ∈ dropThroughYields 0 c1CounterexampleRun.1, isYieldEv e = true) := by
  decide

/-- Witness for C1 (amended) at a concrete input: `opt_limit = 1` over
a two-event store; the run is capped after exactly one yield and the
trace ends there. -/
theorem claim_C1_opt_limit_cap_witness :
    1 ≤ 1 ∧
    ((yieldsOf (generateQueryResults (fun r => some r) (some 1)
        [⟨1, 100, some "a", none, none⟩, ⟨2, 50, none, none, none⟩]
        0 (some 200) none 1 0 10 10).1).length ≤ 1 ∧
     ((generateQueryResults (fun r => some r) (some 1)
        [⟨1, 100, some "a", none, none⟩, ⟨2, 50, none, none, none⟩]
        0 (some 200) none 1 0 10 10).2.2 = RunStatus.capped →
       (yieldsOf (generateQueryResults (fun r => some r) (some 1)
          [⟨1, 100, some "a", none, none⟩, ⟨2, 50, none, none, none⟩]
          0 (some 200) none 1 0 10 10).1).length = 1 ∧
       (generateQueryResults (fun r => some r) (some 1)
          [⟨1, 100, some "a", none, none⟩, ⟨2, 50, none, none, none⟩]
          0 (some 200) none 1 0 10 10).2.1 = 1 ∧
       dropThroughYields 1 (generateQueryResults (fun r => some r) (some 1)
          [⟨1, 100, some "a", none, none⟩, ⟨2, 50, none, none, none⟩]
          0 (some 200) none 1 0 10 10).1 = [] ∧
       ∀ e ∈ dropThroughYields 1 (generateQueryResults (fun r => some r) (some 1)
          [⟨1, 100, some "a", none, none⟩, ⟨2, 50, none, none, none⟩]
          0 (some 200) none 1 0 10 10).1, isYieldEv e = true) ∧
     ((generateQueryResults (fun r => some r) (some 1)
        [⟨1, 100, some "a", none, none⟩, ⟨2, 50, none, none, none⟩]
        0 (some 200) none 1 0 10 10).2.2 = RunStatus.exhausted →
       (yieldsOf (generateQueryResults (fun r => some r) (some 1)
          [⟨1, 100, some "a", none, none⟩, ⟨2, 50, none, none, none⟩]
          0 (some 200) none 1 0 10 10).1).length < 1) ∧
     (generateQueryResults (fun r => some r) (some 1)
        [⟨1, 100, some "a", none, none⟩, ⟨2, 50, none, none, none⟩]
        0 (some 200) none 1 0 10 10).2.2 ≠ RunStatus.errored) :=
  ⟨Nat.le_refl 1,
   claim_C1_opt_limit_cap (fun r => some r) 1
     [⟨1, 100, some "a", none, none⟩, ⟨2, 50, none, none, none⟩]
     0 (some 200) none 1 0 10 10 _ (Nat.le_refl 1) rfl⟩

/-! ### Ordering lemmas for the pipeline (claim C3) -/

/-- `_preprocess_result_dict` never changes the `time` of a kept
result dict (it only rewrites `url` and pops `url_data`). -/
theorem preprocessResultDict_time (provPrefix : String)
    (normalizeUrl : List (String × Bool) → String → String)
    (b64decode : String → String) (paramUrls : Option (List String))
    (r r' : ResultDict)
    (h : preprocessResultDict provPrefix normalizeUrl b64decode paramUrls r = some r') :
    r'.time = r.time := by
  cases hud : r.urlData with
  | none =>
    cases hu : r.url with
    | none =>
      simp only [preprocessResultDict, hud, hu, Option.some.injEq] at h
      rw [← h]
    | some u =>
      by_cases hpre : strStartsWith u provPrefix = true
      · simp [preprocessResultDict, hud, hu, hpre] at h
      · simp only [preprocessResultDict, hud, hu, hpre, Bool.false_eq_true, if_false,
          Option.some.injEq] at h
        rw [← h]
  | some ud =>
    cases hu : r.url with
    | none => simp [preprocessResultDict, hud, hu] at h
    | some u =>
      by_cases hpre : strStartsWith u provPrefix = true
      · cases ud with
        | malformed => simp [preprocessResultDict, hud, hu, hpre] at h
        | wellFormed urlOrig opts =>
          cases hp : paramUrls with
          | none =>
            simp only [preprocessResultDict, hud, hu, hpre, hp, not_true_eq_false,
              Bool.false_eq_true, if_false, Option.map_none', Option.some.injEq] at h
            rw [← h]
          | some ps =>
            by_cases hmem : normalizeUrl opts (b64decode urlOrig) ∈ ps.map (normalizeUrl opts)
            · simp only [preprocessResultDict, hud, hu, hpre, hp, not_true_eq_false,
                Bool.false_eq_true, if_false, Option.map_some', if_pos hmem,
                Option.some.injEq] at h
              rw [← h]
            · simp [preprocessResultDict, hud, hu, hpre, hp, hmem] at h
      · simp [preprocessResultDict, hud, hu, hpre] at h

/-- Every result yielded by `processIdGroups` carries the `time` of
some row of one of its groups (via the sample row of
`_make_result_dict` and the time-preservation of the preprocessing). -/
theorem processIdGroups_yield_time (pre : ResultDict → Option ResultDict)
    (hpre : ∀ r r', pre r = some r' → r'.time = r.time) (optLimit : Option Nat) :
    ∀ (gs : List (List Row)) (produced : Nat), (∀ g ∈ gs, g ≠ []) →
      ∀ r ∈ yieldsOf (processIdGroups pre optLimit produced gs).1,
        ∃ g ∈ gs, ∃ x ∈ g, r.time = x.time := by
  intro gs
  induction gs with
  | nil => intro produced _ r hr; simp [processIdGroups, yieldsOf] at hr
  | cons g gs ih =>
    intro produced hne r hr
    simp only [processIdGroups] at hr
    cases hpro : produceResultOrNone pre g with
    | some r0 =>
      rw [hpro] at hr
      have hr0time : ∃ x ∈ g, r0.time = x.time := by
        have htime := hpre _ _ hpro
        cases g with
        | nil => exact absurd rfl (hne [] (List.mem_cons_self [] gs))
        | cons a rest => exact ⟨a, List.mem_cons_self a rest, htime⟩
      cases henough : enoughResultsProduced optLimit (produced + 1) with
      | true =>
        rw [henough] at hr
        simp only [if_true, yieldsOf] at hr
        simp at hr
        subst hr
        rcases hr0time with ⟨x, hx, hx'⟩
        exact ⟨g, List.mem_cons_self g gs, x, hx, hx'⟩
      | false =>
        rw [henough] at hr
        simp only [Bool.false_eq_true, if_false] at hr
        rw [yieldsOf_cons_yield] at hr
        rcases List.mem_cons.mp hr with rfl | hr'
        · rcases hr0time with ⟨x, hx, hx'⟩
          exact ⟨g, List.mem_cons_self g gs, x, hx, hx'⟩
        · rcases ih (produced + 1) (fun g' hg' => hne g' (List.mem_cons_of_mem g hg'))
              r hr' with ⟨g', hg', x, hx, hx'⟩
          exact ⟨g', List.mem_cons_of_mem g hg', x, hx, hx'⟩
    | none =>
      rw [hpro] at hr
      cases henough : enoughResultsProduced optLimit produced with
      | true =>
        rw [henough] at hr
        simp [yieldsOf] at hr
      | false =>
        rw [henough] at hr
        simp only [Bool.false_eq_true, if_false] at hr
        rcases ih produced (fun g' hg' => hne g' (List.mem_cons_of_mem g hg'))
            r hr with ⟨g', hg', x, hx, hx'⟩
        exact ⟨g', List.mem_cons_of_mem g hg', x, hx, hx'⟩

/-- Result dicts whose times are pairwise equal are (trivially)
non-increasing in time. -/
theorem pairwise_time_of_const (l : List ResultDict)
    (h : ∀ a ∈ l, ∀ b ∈ l, a.time = b.time) :
    l.Pairwise (fun a b => b.time ≤ a.time) := by
  induction l with
  | nil => exact List.Pairwise.nil
  | cons a l ih =>
    refine List.pairwise_cons.mpr ⟨?_, ?_⟩
    · intro b hb
      exact le_of_eq (h b (List.mem_cons_of_mem a hb) a (List.mem_cons_self a l))
    · exact ih (fun x hx y hy =>
        h x (List.mem_cons_of_mem a hx) y (List.mem_cons_of_mem a hy))

/-- The yields of `processTimeGroups` over time-groups with constant
per-group times and strictly decreasing group times are non-increasing
in `time`, and every yield's time is realized by some row of some
group. -/
theorem processTimeGroups_yield_sorted (pre : ResultDict → Option ResultDict)
    (hpre : ∀ r r', pre r = some r' → r'.time = r.time) (optLimit : Option Nat) :
    ∀ (tgs : List (List Row)) (produced : Nat),
      tgs.Pairwise (fun g g' => ∀ x ∈ g, ∀ y ∈ g', y.time < x.time) →
      (∀ tg ∈ tgs, ∀ x ∈ tg, ∀ y ∈ tg, x.time = y.time) →
      (yieldsOf (processTimeGroups pre optLimit produced tgs).1).Pairwise
        (fun a b => b.time ≤ a.time) ∧
      (∀ r ∈ yieldsOf (processTimeGroups pre optLimit produced tgs).1,
        ∃ tg ∈ tgs, ∃ x ∈ tg, r.time = x.time) := by
  intro tgs
  induction tgs with
  | nil =>
    intro produced _ _
    constructor
    · simp [processTimeGroups, yieldsOf]
    · intro r hr; simp [processTimeGroups, yieldsOf] at hr
  | cons tg tgs ih =>
    intro produced hpw hconst
    rcases List.pairwise_cons.mp hpw with ⟨hhead, htail⟩
    simp only [processTimeGroups]
    -- facts about the yields of this time-group
    have hidne : ∀ g ∈ groupConsecBy Row.rid (sortById tg), g ≠ [] :=
      groupConsecBy_ne_nil Row.rid (sortById tg)
    have hmem_tg : ∀ g ∈ groupConsecBy Row.rid (sortById tg), ∀ x ∈ g, x ∈ tg := by
      intro g hg x hx
      exact (sortById_perm tg).mem_iff.mp (groupConsecBy_mem Row.rid (sortById tg) g hg x hx)
    have hy1 : ∀ r ∈ yieldsOf (processIdGroups pre optLimit produced
        (groupConsecBy Row.rid (sortById tg))).1, ∃ x ∈ tg, r.time = x.time := by
      intro r hr
      rcases processIdGroups_yield_time pre hpre optLimit _ produced hidne r hr
        with ⟨g, hg, x, hx, hx'⟩
      exact ⟨x, hmem_tg g hg x hx, hx'⟩
    have hy1pw : (yieldsOf (processIdGroups pre optLimit produced
        (groupConsecBy Row.rid (sortById tg))).1).Pairwise (fun a b => b.time ≤ a.time) := by
      refine pairwise_time_of_const _ ?_
      intro a ha b hb
      rcases hy1 a ha with ⟨xa, hxa, hxa'⟩
      rcases hy1 b hb with ⟨xb, hxb, hxb'⟩
      rw [hxa', hxb']
      exact hconst tg (List.mem_cons_self tg tgs) xa hxa xb hxb
    cases hcap : (processIdGroups pre optLimit produced
        (groupConsecBy Row.rid (sortById tg))).2.2 with
    | true =>
      simp only [hcap, if_true]
      refine ⟨hy1pw, ?_⟩
      intro r hr
      rcases hy1 r hr with ⟨x, hx, hx'⟩
      exact ⟨tg, List.mem_cons_self tg tgs, x, hx, hx'⟩
    | false =>
      simp only [hcap, Bool.false_eq_true, if_false]
      rcases ih _ htail (fun tg' htg' => hconst tg' (List.mem_cons_of_mem tg htg'))
        with ⟨ihpw, ihmem⟩
      rw [yieldsOf_append]
      constructor
      · refine List.pairwise_append.mpr ⟨hy1pw, ihpw, ?_⟩
        intro r1 hr1 r2 hr2
        rcases hy1 r1 hr1 with ⟨x1, hx1, hx1'⟩
        rcases ihmem r2 hr2 with ⟨tg', htg', x2, hx2, hx2'⟩
        rw [hx1', hx2']
        exact le_of_lt (hhead tg' htg' x1 hx1 x2 hx2)
      · intro r hr
        rcases List.mem_append.mp hr with hr | hr
        · rcases hy1 r hr with ⟨x, hx, hx'⟩
          exact ⟨tg, List.mem_cons_self tg tgs, x, hx, hx'⟩
        · rcases ihmem r hr with ⟨tg', htg', x, hx, hx'⟩
          exact ⟨tg', List.mem_cons_of_mem tg htg', x, hx, hx'⟩

/-- Splicing a fetched page back: the page followed by the remainder
after advancing the offset by the page's length restores the stream. -/
theorem take_append_drop_length {α : Type} (lim : Nat) (d : List α) :
    d.take lim ++ d.drop (d.take lim).length = d := by
  by_cases h : lim ≤ d.length
  · rw [List.length_take, min_eq_left h, List.take_append_drop]
  · push_neg at h
    rw [List.take_of_length_le (le_of_lt h), List.drop_length, List.append_nil]

/-- A grouped list is its groups-but-the-last followed by its last
group. -/
theorem flatten_dropLast_getLast {α : Type} (L : List (List α)) :
    L.dropLast.flatten ++ (L.getLast?.getD []) = L.flatten := by
  cases hL : L with
  | nil => simp
  | cons g L' =>
    have hne : g :: L' ≠ [] := List.cons_ne_nil g L'
    rw [List.getLast?_eq_getLast _ hne]
    simp only [Option.getD_some]
    conv_rhs => rw [← List.dropLast_append_getLast hne]
    rw [List.flatten_append]
    simp

/-- The time-groups of a list sorted descending by `time` have strictly
decreasing group times and constant time within each group. -/
theorem groups_of_sorted_desc (l : List Row)
    (hsorted : l.Pairwise (fun a b => b.time ≤ a.time)) :
    (groupConsecBy Row.time l).Pairwise
      (fun g g' => ∀ x ∈ g, ∀ y ∈ g', y.time < x.time) ∧
    (∀ tg ∈ groupConsecBy Row.time l, ∀ x ∈ tg, ∀ y ∈ tg, x.time = y.time) := by
  constructor
  · refine groupConsecBy_pairwise Row.time (fun u v : Int => u < v)
      (fun a b c h1 h2 => lt_trans h1 h2) l ?_
    refine hsorted.imp ?_
    intro a b h
    rcases lt_or_eq_of_le h with h' | h'
    · exact Or.inl h'
    · exact Or.inr h'
  · exact groupConsecBy_same_key Row.time l

theorem fetchRowsForSingleStep_yield_sorted (pre : ResultDict → Option ResultDict)
    (hpre : ∀ r r', pre r = some r' → r'.time = r.time) (optLimit : Option Nat)
    (winRows : List Row) :
    ∀ (fuel : Nat) (produced offset : Nat) (buffer : List Row),
      (buffer ++ winRows.drop offset).Pairwise (fun a b : Row => b.time ≤ a.time) →
      (yieldsOf (fetchRowsForSingleStep pre optLimit winRows fuel
          produced offset buffer).1).Pairwise (fun a b => b.time ≤ a.time) ∧
      (∀ r ∈ yieldsOf (fetchRowsForSingleStep pre optLimit winRows fuel
          produced offset buffer).1,
        ∃ x ∈ buffer ++ winRows.drop offset, r.time = x.time) := by
  intro fuel
  induction fuel with
  | zero =>
    intro produced offset buffer _
    constructor
    · simp [fetchRowsForSingleStep, yieldsOf]
    · intro r hr; simp [fetchRowsForSingleStep, yieldsOf] at hr
  | succ n ih =>
    intro produced offset buffer hsorted
    cases hbq : buildActualQueryLimit optLimit produced with
    | error e =>
      simp only [fetchRowsForSingleStep, hbq]
      constructor
      · simp [yieldsOf]
      · intro r hr; simp [yieldsOf] at hr
    | ok queryLimit =>
      cases queryLimit with
      | none =>
        -- unlimited query: the page is the whole remaining stream
        simp only [fetchRowsForSingleStep, hbq, if_true]
        rcases groups_of_sorted_desc _ hsorted with ⟨hgpw, hgconst⟩
        rcases processTimeGroups_yield_sorted pre hpre optLimit _ produced hgpw hgconst
          with ⟨hpw, hmem⟩
        constructor
        · rw [yieldsOf_cons_pageFetch]
          exact hpw
        · intro r hr
          rw [yieldsOf_cons_pageFetch] at hr
          rcases hmem r hr with ⟨tg, htg, x, hx, hx'⟩
          exact ⟨x, groupConsecBy_mem Row.time _ tg htg x hx, hx'⟩
      | some lim =>
        simp only [fetchRowsForSingleStep, hbq]
        -- splice identity: processed prefix ++ remainder = current stream
        have hsplice : (buffer ++ (winRows.drop offset).take lim)
            ++ winRows.drop (offset + ((winRows.drop offset).take lim).length)
            = buffer ++ winRows.drop offset := by
          rw [List.append_assoc]
          congr 1
          rw [← List.drop_drop]
          exact take_append_drop_length lim (winRows.drop offset)
        have hnewbuf_sorted : (buffer ++ (winRows.drop offset).take lim).Pairwise
            (fun a b : Row => b.time ≤ a.time) := by
          rw [← hsplice] at hsorted
          exact (List.pairwise_append.mp hsorted).1
        have hnewbuf_mem : ∀ x ∈ buffer ++ (winRows.drop offset).take lim,
            x ∈ buffer ++ winRows.drop offset := by
          intro x hx
          rw [← hsplice]
          exact List.mem_append_left _ hx
        rcases groups_of_sorted_desc _ hnewbuf_sorted with ⟨hgpw, hgconst⟩
        by_cases hgot : ((winRows.drop offset).take lim).length < lim
        · simp only [decide_eq_true hgot, if_true]
          rcases processTimeGroups_yield_sorted pre hpre optLimit _ produced hgpw hgconst
            with ⟨hpw, hmem⟩
          constructor
          · rw [yieldsOf_cons_pageFetch]
            exact hpw
          · intro r hr
            rw [yieldsOf_cons_pageFetch] at hr
            rcases hmem r hr with ⟨tg, htg, x, hx, hx'⟩
            exact ⟨x, hnewbuf_mem x (groupConsecBy_mem Row.time _ tg htg x hx), hx'⟩
        · simp only [decide_eq_false hgot, Bool.false_eq_true, if_false]
          set newBuf := buffer ++ (winRows.drop offset).take lim with hnewBuf
          set tgs := groupConsecBy Row.time newBuf with htgs
          have hdl_pw : tgs.dropLast.Pairwise
              (fun g g' => ∀ x ∈ g, ∀ y ∈ g', y.time < x.time) :=
            hgpw.sublist (List.dropLast_sublist tgs)
          have hdl_const : ∀ tg ∈ tgs.dropLast, ∀ x ∈ tg, ∀ y ∈ tg, x.time = y.time :=
            fun tg htg => hgconst tg ((List.dropLast_sublist tgs).subset htg)
          rcases processTimeGroups_yield_sorted pre hpre optLimit tgs.dropLast produced
            hdl_pw hdl_const with ⟨hpw1, hmem1⟩
          have hmem1' : ∀ r ∈ yieldsOf (processTimeGroups pre optLimit produced
              tgs.dropLast).1, ∃ x ∈ newBuf, r.time = x.time := by
            intro r hr
            rcases hmem1 r hr with ⟨tg, htg, x, hx, hx'⟩
            exact ⟨x, groupConsecBy_mem Row.time newBuf tg
              ((List.dropLast_sublist tgs).subset htg) x hx, hx'⟩
          have hAB : tgs.dropLast.flatten
              ++ ((tgs.getLast?.getD [])
                  ++ winRows.drop (offset + ((winRows.drop offset).take lim).length))
              = buffer ++ winRows.drop offset := by
            rw [← List.append_assoc, flatten_dropLast_getLast,
              htgs, groupConsecBy_flatten]
            exact hsplice
          have hsorted' := hsorted
          rw [← hAB] at hsorted'
          rcases List.pairwise_append.mp hsorted' with ⟨_, hrest', hcross⟩
          rcases ih (processTimeGroups pre optLimit produced tgs.dropLast).2.1
            (offset + ((winRows.drop offset).take lim).length)
            (tgs.getLast?.getD []) hrest' with ⟨ihpw, ihmem⟩
          cases hcap : (processTimeGroups pre optLimit produced tgs.dropLast).2.2 with
          | true =>
            simp only [hcap, if_true]
            constructor
            · rw [yieldsOf_cons_pageFetch]
              exact hpw1
            · intro r hr
              rw [yieldsOf_cons_pageFetch] at hr
              rcases hmem1' r hr with ⟨x, hx, hx'⟩
              exact ⟨x, hnewbuf_mem x hx, hx'⟩
          | false =>
            simp only [hcap, Bool.false_eq_true, if_false]
            rw [List.cons_append]
            constructor
            · rw [yieldsOf_cons_pageFetch, yieldsOf_append]
              refine List.pairwise_append.mpr ⟨hpw1, ihpw, ?_⟩
              intro r1 hr1 r2 hr2
              rcases hmem1 r1 hr1 with ⟨tg, htg, x1, hx1, hx1'⟩
              rcases ihmem r2 hr2 with ⟨x2, hx2, hx2'⟩
              rw [hx1', hx2']
              exact hcross x1 (List.mem_flatten.mpr ⟨tg, htg, hx1⟩) x2 hx2
            · intro r hr
              rw [yieldsOf_cons_pageFetch, yieldsOf_append] at hr
              rcases List.mem_append.mp hr with hr | hr
              · rcases hmem1' r hr with ⟨x, hx, hx'⟩
                exact ⟨x, hnewbuf_mem x hx, hx'⟩
              · rcases ihmem r hr with ⟨x, hx, hx'⟩
                refine ⟨x, ?_, hx'⟩
                rw [← hAB]
                exact List.mem_append_right _ hx

/-- "Every time admitted by a later window is below every time admitted
by an earlier window": the disjointness/descending relation between
windows used for cross-window ordering. -/
def WinBelow (w w' : TimeWindow) : Prop :=
  ∀ t t', windowHasTime w t = true → windowHasTime w' t' = true → t' < t

theorem windowHasTime_lower {w : TimeWindow} {t : Int}
    (h : windowHasTime w t = true) : w.lower ≤ t := by
  unfold windowHasTime at h
  simp only [Bool.and_eq_true, decide_eq_true_eq] at h
  exact h.1

theorem windowHasTime_upper_strict {w : TimeWindow} {t : Int}
    (hincl : w.upperIncl = false) (h : windowHasTime w t = true) : t < w.upper := by
  unfold windowHasTime at h
  rw [hincl] at h
  simp only [Bool.and_eq_true, Bool.false_eq_true, if_false, decide_eq_true_eq] at h
  exact h.2

/-- All windows produced by the loop admit only times strictly below
the entry `timeLower`, and the produced windows are pairwise
descending (nonnegative step). -/
theorem windowLoopFuel_below (timeMin stepDelta : Int) (hD : 0 ≤ stepDelta) :
    ∀ (fuel : Nat) (timeLower : Int) (ws : List TimeWindow),
      windowLoopFuel timeMin stepDelta fuel timeLower = some ws →
      (∀ w ∈ ws, ∀ t, windowHasTime w t = true → t < timeLower) ∧
      ws.Pairwise WinBelow := by
  intro fuel
  induction fuel with
  | zero => intro timeLower ws h; simp [windowLoopFuel] at h
  | succ n ih =>
    intro timeLower ws h
    rw [windowLoopFuel] at h
    by_cases hc : timeMin < timeLower
    · simp only [if_pos hc, Option.map_eq_some'] at h
      rcases h with ⟨ws', hws', rfl⟩
      rcases ih _ _ hws' with ⟨ihbelow, ihpw⟩
      have hfirst : ∀ t, windowHasTime ⟨max timeMin (timeLower - stepDelta), timeLower, false⟩ t
          = true → t < timeLower := by
        intro t ht
        exact windowHasTime_upper_strict rfl ht
      constructor
      · intro w hw t ht
        rcases List.mem_cons.mp hw with rfl | hmem
        · exact hfirst t ht
        · have := ihbelow w hmem t ht
          omega
      · refine List.pairwise_cons.mpr ⟨?_, ihpw⟩
        intro w' hw' t t' ht ht'
        have h1 : max timeMin (timeLower - stepDelta) ≤ t := windowHasTime_lower ht
        have h2 := ihbelow w' hw' t' ht'
        omega
    · simp only [if_neg hc, Option.some.injEq] at h
      subst h
      exact ⟨by intro w hw; simp at hw, List.Pairwise.nil⟩

/-- The windows generated by `_time_comparisons_per_step` are pairwise
descending: any time admitted by a later window is strictly below any
time admitted by an earlier window. -/
theorem timeComparisonsPerStep_below (timeMin : Int) (timeMax timeUntil : Option Int)
    (dayStep now : Int) (fuel : Nat) (ws : List TimeWindow)
    (hstep : 1 ≤ dayStep)
    (h : timeComparisonsPerStep timeMin timeMax timeUntil dayStep now fuel = some ws) :
    ws.Pairwise WinBelow := by
  have hD : (0 : Int) ≤ stepDeltaOf dayStep := le_of_lt (stepDeltaOf_pos hstep)
  have key : ∀ (U0 : Int) (incl : Bool) (tail : List TimeWindow),
      windowLoopFuel timeMin (stepDeltaOf dayStep) fuel
        (max timeMin (U0 - stepDeltaOf dayStep)) = some tail →
      (⟨max timeMin (U0 - stepDeltaOf dayStep), U0, incl⟩ :: tail
        : List TimeWindow).Pairwise WinBelow := by
    intro U0 incl tail htail
    rcases windowLoopFuel_below timeMin (stepDeltaOf dayStep) hD fuel _ tail htail
      with ⟨hbelow, hpw⟩
    refine List.pairwise_cons.mpr ⟨?_, hpw⟩
    intro w' hw' t t' ht ht'
    have h1 : max timeMin (U0 - stepDeltaOf dayStep) ≤ t := windowHasTime_lower ht
    have h2 := hbelow w' hw' t' ht'
    omega
  rcases timeUntil with _ | tu
  · rcases timeMax with _ | tm
    · simp only [timeComparisonsPerStep, Option.map_eq_some'] at h
      rcases h with ⟨tail, htail, rfl⟩
      exact key _ true tail htail
    · simp only [timeComparisonsPerStep, Option.map_eq_some'] at h
      rcases h with ⟨tail, htail, rfl⟩
      exact key _ true tail htail
  · simp only [timeComparisonsPerStep, Option.map_eq_some'] at h
    rcases h with ⟨tail, htail, rfl⟩
    exact key _ false tail htail

/-- Yields of the window iteration are non-increasing in `time`, and
every yield's time is admitted by one of the windows. -/
theorem fetchRowsFromDb_yield_sorted (pre : ResultDict → Option ResultDict)
    (hpre : ∀ r r', pre r = some r' → r'.time = r.time) (optLimit : Option Nat)
    (db : List Row) (pageFuel : Nat) :
    ∀ (ws : List TimeWindow) (produced : Nat), ws.Pairwise WinBelow →
      (yieldsOf (fetchRowsFromDb pre optLimit db pageFuel produced ws).1).Pairwise
        (fun a b => b.time ≤ a.time) ∧
      (∀ r ∈ yieldsOf (fetchRowsFromDb pre optLimit db pageFuel produced ws).1,
        ∃ w ∈ ws, windowHasTime w r.time = true) := by
  intro ws
  induction ws with
  | nil =>
    intro produced _
    constructor
    · simp [fetchRowsFromDb, yieldsOf]
    · intro r hr; simp [fetchRowsFromDb, yieldsOf] at hr
  | cons w ws ih =>
    intro produced hpw
    rcases List.pairwise_cons.mp hpw with ⟨hhead, htail⟩
    have hwin : (([] : List Row) ++ (stepQueryRows db w).drop 0).Pairwise
        (fun a b : Row => b.time ≤ a.time) := by
      simpa using sortByTimeDesc_sorted (db.filter (fun r => windowHasTime w r.time))
    rcases fetchRowsForSingleStep_yield_sorted pre hpre optLimit (stepQueryRows db w)
      pageFuel produced 0 [] hwin with ⟨hpw1, hmem1⟩
    have hmem1' : ∀ r ∈ yieldsOf (fetchRowsForSingleStep pre optLimit (stepQueryRows db w)
        pageFuel produced 0 []).1, windowHasTime w r.time = true := by
      intro r hr
      rcases hmem1 r hr with ⟨x, hx, hx'⟩
      simp only [List.nil_append, List.drop_zero] at hx
      have hxf : x ∈ db.filter (fun r => windowHasTime w r.time) :=
        (sortByTimeDesc_perm _).mem_iff.mp hx
      have := (List.mem_filter.mp hxf).2
      rw [hx']
      exact this
    simp only [fetchRowsFromDb]
    cases hst : (fetchRowsForSingleStep pre optLimit (stepQueryRows db w)
        pageFuel produced 0 []).2.2 with
    | exhausted =>
      simp only [hst]
      rcases ih _ htail with ⟨ihpw, ihmem⟩
      rw [List.cons_append]
      constructor
      · rw [yieldsOf_cons_winOpen, yieldsOf_append]
        refine List.pairwise_append.mpr ⟨hpw1, ihpw, ?_⟩
        intro r1 hr1 r2 hr2
        rcases ihmem r2 hr2 with ⟨w', hw', hw'time⟩
        exact le_of_lt (hhead w' hw' r1.time r2.time (hmem1' r1 hr1) hw'time)
      · intro r hr
        rw [yieldsOf_cons_winOpen, yieldsOf_append] at hr
        rcases List.mem_append.mp hr with hr | hr
        · exact ⟨w, List.mem_cons_self w ws, hmem1' r hr⟩
        · rcases ihmem r hr with ⟨w', hw', hw'time⟩
          exact ⟨w', List.mem_cons_of_mem w hw', hw'time⟩
    | capped =>
      simp only [hst]
      refine ⟨by rw [yieldsOf_cons_winOpen]; exact hpw1, ?_⟩
      intro r hr
      rw [yieldsOf_cons_winOpen] at hr
      exact ⟨w, List.mem_cons_self w ws, hmem1' r hr⟩
    | errored =>
      simp only [hst]
      refine ⟨by rw [yieldsOf_cons_winOpen]; exact hpw1, ?_⟩
      intro r hr
      rw [yieldsOf_cons_winOpen] at hr
      exact ⟨w, List.mem_cons_self w ws, hmem1' r hr⟩
    | outOfFuel =>
      simp only [hst]
      refine ⟨by rw [yieldsOf_cons_winOpen]; exact hpw1, ?_⟩
      intro r hr
      rw [yieldsOf_cons_winOpen] at hr
      exact ⟨w, List.mem_cons_self w ws, hmem1' r hr⟩

/-- **C3.** For every invocation of `generate_query_results()` — the
per-window queries return their rows ordered by `time` descending, as
embedded by `stepQueryRows` (the `ORDER BY event.time DESC` of
`_build_query_base_for_single_step`) — the whole emitted sequence of
result dicts is ordered non-increasingly by the `time` field, within
and across windows, for any combination of
`time_min`/`time_max`/`time_until` and any `opt_limit`. -/
theorem claim_C3_descending_time_order (provPrefix : String)
    (normalizeUrl : List (String × Bool) → String → String)
    (b64decode : String → String) (paramUrls : Option (List String))
    (optLimit : Option Nat) (db : List Row) (timeMin : Int)
    (timeMax timeUntil : Option Int) (dayStep now : Int) (winFuel pageFuel : Nat)
    (out : List Ev × Nat × RunStatus) (hstep : 1 ≤ dayStep)
    (hout : generateQueryResults
      (preprocessResultDict provPrefix normalizeUrl b64decode paramUrls) optLimit db
      timeMin timeMax timeUntil dayStep now winFuel pageFuel = out) :
    (yieldsOf out.1).Pairwise (fun a b => b.time ≤ a.time) := by
  subst hout
  cases hws : timeComparisonsPerStep timeMin timeMax timeUntil dayStep now winFuel with
  | none => simp [generateQueryResults, hws, yieldsOf]
  | some ws =>
    simp only [generateQueryResults, hws]
    have hbelow := timeComparisonsPerStep_below timeMin timeMax timeUntil dayStep now
      winFuel ws hstep hws
    exact (fetchRowsFromDb_yield_sorted
      (preprocessResultDict provPrefix normalizeUrl b64decode paramUrls)
      (preprocessResultDict_time provPrefix normalizeUrl b64decode paramUrls)
      optLimit db pageFuel ws 0 hbelow).1

/-- Witness for C3 at a concrete input: a three-row store queried with
`time.until` over two windows. -/
theorem claim_C3_descending_time_order_witness :
    1 ≤ (1 : Int) ∧
    (yieldsOf (generateQueryResults
        (preprocessResultDict "p:" (fun _ u => u) (fun s => s) none) none
        [⟨1, 100, some "a", none, none⟩, ⟨2, 99000, none, none, none⟩,
         ⟨3, 100, some "b", none, none⟩]
        0 none (some 100000) 1 0 10 10).1).Pairwise (fun a b => b.time ≤ a.time) :=
  ⟨by decide,
   claim_C3_descending_time_order "p:" (fun _ u => u) (fun s => s) none none
     [⟨1, 100, some "a", none, none⟩, ⟨2, 99000, none, none, none⟩,
      ⟨3, 100, some "b", none, none⟩]
     0 none (some 100000) 1 0 10 10 _ (by decide) rfl⟩

/-! ### The transactional scope
(`_EventDatabaseTransactionContextManager`, claim C7) -/

/-- An operation performed on the scoped SQLAlchemy session. -/
inductive DbOp where
  | rollback : DbOp
  | flush : DbOp
  | commit : DbOp
deriving DecidableEq, Repr

/-- How `__exit__` ends. -/
inductive ExitOutcome where
  | normal : ExitOutcome
  | raised (e : String) : ExitOutcome
  | propagated (e : String) : ExitOutcome
deriving DecidableEq, Repr

/-- `_EventDatabaseTransactionContextManager._transaction_finalizer`:
with no active exception, try `_DBSession.flush()` — on failure, roll
back and return the flush exception info; on success, commit and
return `None`.  With an active exception, roll back and return `None`.
`flushExc` abstracts whether (and with what exception) `flush()`
raises; `excActive` is the exception active at `__exit__`, if any.
Returned: the session operations in order, and the flush exception
info handed back to `__exit__`. -/
def transactionFinalizer (flushExc : Option String) (excActive : Option String) :
    List DbOp × Option String :=
  match excActive with
  | none =>
    match flushExc with
    | some e => ([DbOp.flush, DbOp.rollback], some e)
    | none => ([DbOp.flush, DbOp.commit], none)
  | some _ => ([DbOp.rollback], none)

/-- `__exit__` on the normal (singly-entered) path.  Modelled from the
spec for the part played by `ThreadLocalContextDeposit.on_exit` (from
`n6lib.context_helpers`, outside the embedded source file): on the
outermost context it invokes the outermost-context finalizer and
returns its result.  `__exit__` itself (embedded from the source) then
re-raises the returned flush exception info if there is one, and
otherwise returns `None` (falsy), so an active exception propagates
unchanged. -/
def transactExit (flushExc : Option String) (excActive : Option String) :
    List DbOp × ExitOutcome :=
  let fin := transactionFinalizer flushExc excActive
  match fin.2 with
  | some e => (fin.1, ExitOutcome.raised e)
  | none =>
    match excActive with
    | some e => (fin.1, ExitOutcome.propagated e)
    | none => (fin.1, ExitOutcome.normal)

/-- **C7.** On exit of the transactional scope with no active
exception, the pending work is flushed; if the flush raises, the
transaction is rolled back and the flush failure is propagated;
otherwise the transaction is committed.  On exit with an active
exception, the transaction is rolled back (no flush, no commit) and
the original exception propagates unchanged. -/
theorem claim_C7_transact_exit (flushExc excActive : Option String) :
    (excActive = none → flushExc = none →
      transactExit flushExc excActive = ([DbOp.flush, DbOp.commit], ExitOutcome.normal)) ∧
    (∀ e, excActive = none → flushExc = some e →
      transactExit flushExc excActive = ([DbOp.flush, DbOp.rollback], ExitOutcome.raised e)) ∧
    (∀ e, excActive = some e →
      transactExit flushExc excActive = ([DbOp.rollback], ExitOutcome.propagated e)) := by
  refine ⟨?_, ?_, ?_⟩
  · intro h1 h2; subst h1; subst h2; rfl
  · intro e h1 h2; subst h1; subst h2; rfl
  · intro e h1; subst h1
    cases flushExc <;> rfl

/-- Witness for C7 at concrete inputs: a clean exit commits; an exit
with failing flush rolls back and raises the flush failure; an exit
during an active exception rolls back and propagates the original. -/
theorem claim_C7_transact_exit_witness :
    transactExit none none = ([DbOp.flush, DbOp.commit], ExitOutcome.normal) ∧
    transactExit (some "IntegrityError") none
      = ([DbOp.flush, DbOp.rollback], ExitOutcome.raised "IntegrityError") ∧
    transactExit none (some "ValueError")
      = ([DbOp.rollback], ExitOutcome.propagated "ValueError") :=
  ⟨(claim_C7_transact_exit none none).1 rfl rfl,
   (claim_C7_transact_exit (some "IntegrityError") none).2.1 "IntegrityError" rfl rfl,
   (claim_C7_transact_exit none (some "ValueError")).2.2 "ValueError" rfl⟩

/-! ### Error translation
(`_BaseQueryProcessor.handling_db_api_error`, claim C8) -/

/-- `DB_API_ERROR_MESSAGE_MAX_LENGTH = 200`. -/
def DB_API_ERROR_MESSAGE_MAX_LENGTH : Nat := 200

/-- `_format_db_api_error_summary`: truncate the ASCII rendering of
the driver exception to 200 characters, collapse newlines into spaces,
and wrap as `DB API error - {}...`.  Messages are embedded as `List
Char` (the output of the external `make_exc_ascii_str`). -/
def formatDbApiErrorSummary (excMsg : List Char) : List Char :=
  "DB API error - ".toList
    ++ (excMsg.take DB_API_ERROR_MESSAGE_MAX_LENGTH).map
        (fun c => if c = '\n' then ' ' else c)
    ++ "...".toList

/-- `EventDatabaseError`, the single domain error type of the Event DB
API. -/
structure EventDatabaseErrorE where
  summary : List Char
deriving DecidableEq

/-- The body executed under `handling_db_api_error`: either it returns
a value, or a `DBAPIError` escapes it (carrying the driver message;
the failing statement and parameters are logged alongside). -/
inductive DbApiAction (α : Type) where
  | ok (a : α) : DbApiAction α
  | dbApiError (excMsg : List Char) : DbApiAction α

/-- `handling_db_api_error`: pass successes through; catch any
`DBAPIError`, log it with the failing statement/parameters, and
re-raise it as `EventDatabaseError` with the formatted summary. -/
def handlingDbApiError {α : Type} (action : DbApiAction α) :
    Except EventDatabaseErrorE α :=
  match action with
  | .ok a => .ok a
  | .dbApiError msg => .error ⟨formatDbApiErrorSummary msg⟩

/-- **C8.** Any `DBAPIError` raised while `handling_db_api_error` is
active is caught and re-raised as the single domain error type
`EventDatabaseError`, whose summary embeds at most 200 characters of
the driver message with newlines collapsed into spaces (successes pass
through untouched). -/
theorem claim_C8_db_api_error_translation {α : Type} (action : DbApiAction α) :
    (∀ a, action = .ok a → handlingDbApiError action = .ok a) ∧
    (∀ msg, action = .dbApiError msg →
      ∃ err, handlingDbApiError action = .error err ∧
        ∃ part,
          err.summary = "DB API error - ".toList ++ part ++ "...".toList ∧
          part = (msg.take DB_API_ERROR_MESSAGE_MAX_LENGTH).map
            (fun c => if c = '\n' then ' ' else c) ∧
          part.length ≤ 200 ∧
          '\n' ∉ part) := by
  constructor
  · intro a h; subst h; rfl
  · intro msg h
    subst h
    refine ⟨⟨formatDbApiErrorSummary msg⟩, rfl,
      (msg.take DB_API_ERROR_MESSAGE_MAX_LENGTH).map (fun c => if c = '\n' then ' ' else c),
      rfl, rfl, ?_, ?_⟩
    · rw [List.length_map, List.length_take]
      exact le_trans (min_le_left _ _) (le_refl 200)
    · intro hmem
      rcases List.mem_map.mp hmem with ⟨c, _, hc⟩
      by_cases hcn : c = '\n'
      · rw [if_pos hcn] at hc
        exact absurd hc (by decide)
      · rw [if_neg hcn] at hc
        exact hcn hc

/-- Witness for C8 at a concrete input: a driver failure whose message
contains a newline. -/
theorem claim_C8_db_api_error_translation_witness :
    handlingDbApiError (DbApiAction.dbApiError "boom\nline".toList : DbApiAction Nat)
      = Except.error ⟨formatDbApiErrorSummary "boom\nline".toList⟩ ∧
    (∃ err, handlingDbApiError
        (DbApiAction.dbApiError "boom\nline".toList : DbApiAction Nat) = .error err ∧
      ∃ part,
        err.summary = "DB API error - ".toList ++ part ++ "...".toList ∧
        part = ("boom\nline".toList.take DB_API_ERROR_MESSAGE_MAX_LENGTH).map
          (fun c => if c = '\n' then ' ' else c) ∧
        part.length ≤ 200 ∧
        '\n' ∉ part) :=
  ⟨rfl,
   (claim_C8_db_api_error_translation
      (DbApiAction.dbApiError "boom\nline".toList : DbApiAction Nat)).2
     "boom\nline".toList rfl⟩

/-! ### Client-organization restriction of the counts query
(`N6DataBackendAPI.get_counts_per_category` +
`_BaseQueryProcessor.query__client_filtering`, claim C9) -/

/-- A row as seen by the counts query (the columns its filters touch):
the event `time`, its `category`, and the `client` organisation id
contributed by the join with `client_to_event` (NULL-able). -/
structure CRow where
  time : Int
  category : String
  client : Option String
deriving DecidableEq, Repr

/-- `query__client_filtering`: if a client set is configured, AND an
`IN` predicate on the client column (SQL `IN` is false on NULL);
otherwise a no-op. -/
def queryClientFiltering (clientOrgIds : Option (List String)) (rows : List CRow) :
    List CRow :=
  match clientOrgIds with
  | some ids =>
    rows.filter (fun r =>
      match r.client with
      | some c => ids.contains c
      | none => false)
  | none => rows

/-- `query__access_filtering`: AND the query with the OR of the opaque
access conditions. -/
def queryAccessFiltering (accessConds : List (CRow → Bool)) (rows : List CRow) :
    List CRow :=
  rows.filter (fun r => accessConds.any (fun p => p r))

/-- The row-restriction pipeline of
`_build_query_for_counts_per_category`: `time >= since`, access
filtering, client filtering (the grouping/`count(distinct id)`
aggregation downstream of the restriction is not needed for this
claim). -/
def buildQueryForCountsRows (accessConds : List (CRow → Bool))
    (clientOrgIds : Option (List String)) (since : Int) (rows : List CRow) : List CRow :=
  queryClientFiltering clientOrgIds
    (queryAccessFiltering accessConds (rows.filter (fun r => decide (since ≤ r.time))))

/-- `N6DataBackendAPI.get_counts_per_category` wiring: fail fast on an
empty access-condition list, and construct the counts query processor
with `client_org_ids = [auth_data['org_id']]` — the caller's single
organisation. -/
def apiCountsQueryRows (orgId : String) (accessConds : List (CRow → Bool))
    (since : Int) (rows : List CRow) : Except String (List CRow) :=
  if accessConds.isEmpty then
    .error "filtering conditions not provided"
  else
    .ok (buildQueryForCountsRows accessConds (some [orgId]) since rows)

/-- **C9.** Every `get_counts_per_category(auth_data, ...)` call
restricts its counts query by the client-organization filter to
exactly the single organisation `auth_data['org_id']` on top of the
access filtering: a row is counted iff it passed the time bound and
the access conditions *and* its client is exactly the caller's
organisation — so the returned counts never include events not
associated with the caller's own organisation. -/
theorem claim_C9_counts_client_restriction (orgId : String)
    (accessConds : List (CRow → Bool)) (since : Int) (rows res : List CRow)
    (hres : apiCountsQueryRows orgId accessConds since rows = .ok res) :
    (∀ r ∈ res, r.client = some orgId) ∧
    (∀ r, r ∈ res ↔ (r ∈ rows ∧ since ≤ r.time ∧
      accessConds.any (fun p => p r) = true ∧ r.client = some orgId)) := by
  have hres' : res = buildQueryForCountsRows accessConds (some [orgId]) since rows := by
    cases hc : accessConds.isEmpty with
    | true =>
      simp only [apiCountsQueryRows, hc, if_true] at hres
      exact Except.noConfusion hres
    | false =>
      simp only [apiCountsQueryRows, hc, Bool.false_eq_true, if_false,
        Except.ok.injEq] at hres
      exact hres.symm
  subst hres'
  have hmem : ∀ r, r ∈ buildQueryForCountsRows accessConds (some [orgId]) since rows ↔
      (r ∈ rows ∧ since ≤ r.time ∧ accessConds.any (fun p => p r) = true ∧
        r.client = some orgId) := by
    intro r
    unfold buildQueryForCountsRows queryClientFiltering queryAccessFiltering
    simp only [List.mem_filter, decide_eq_true_eq]
    constructor
    · rintro ⟨⟨⟨hrows, htime⟩, hacc⟩, hclient⟩
      refine ⟨hrows, htime, hacc, ?_⟩
      cases hc : r.client with
      | none => rw [hc] at hclient; simp at hclient
      | some c =>
        rw [hc] at hclient
        simp only [List.contains_cons, List.contains_nil, Bool.or_false, beq_iff_eq] at hclient
        rw [hclient]
    · rintro ⟨hrows, htime, hacc, hclient⟩
      refine ⟨⟨⟨hrows, htime⟩, hacc⟩, ?_⟩
      rw [hclient]
      simp
  refine ⟨?_, hmem⟩
  intro r hr
  exact ((hmem r).mp hr).2.2.2

/-- Witness for C9 at a concrete input: three rows — own-org, other
org, and NULL client — of which only the caller's own-organisation row
survives. -/
theorem claim_C9_counts_client_restriction_witness :
    apiCountsQueryRows "org1" [fun _ => true] 0
        [⟨5, "bots", some "org1"⟩, ⟨5, "bots", some "org2"⟩, ⟨5, "bots", none⟩]
      = .ok [⟨5, "bots", some "org1"⟩] ∧
    (∀ r ∈ [(⟨5, "bots", some "org1"⟩ : CRow)], r.client = some "org1") :=
  ⟨rfl,
   (claim_C9_counts_client_restriction "org1" [fun _ => true] 0
      [⟨5, "bots", some "org1"⟩, ⟨5, "bots", some "org2"⟩, ⟨5, "bots", none⟩]
      [⟨5, "bots", some "org1"⟩] rfl).1⟩

/-! ### Counts per category
(`_CountsQueryProcessor.get_counts_per_category`, claim C6) -/

/-- A Python `dict` with `str` keys and `int` values, embedded as its
insertion-ordered key list plus a total value function (only the keys
in `keys` are considered present). -/
structure PyDict where
  keys : List String
  val : String → Nat

/-- `dict.fromkeys(ks, v)`. -/
def dictFromKeys (ks : List String) (v : Nat) : PyDict :=
  ⟨ks.dedup, fun _ => v⟩

/-- `d[k] = v`: overwrite in place, or append a new key. -/
def dictSet (d : PyDict) (k : String) (v : Nat) : PyDict :=
  ⟨if d.keys.contains k then d.keys else d.keys ++ [k],
   fun c => if c = k then v else d.val c⟩

/-- `d.update(pairs)`: item assignment for each pair, in order. -/
def dictUpdate (d : PyDict) (pairs : List (String × Nat)) : PyDict :=
  pairs.foldl (fun acc p => dictSet acc p.1 p.2) d

/-- `_CountsQueryProcessor.get_counts_per_category`, given the
`(category, count)` pairs the store returned for the built query
(executed under error translation): start from every canonical
category (the `CATEGORY_ENUMS` parameter) mapped to `0`, overlay the
returned pairs, then `_verify_no_illegal_categories`: any key outside
the canonical enumeration raises (`AssertionError`, embedded as
`.error`), aborting the whole count operation. -/
def getCountsPerCategory (categoryEnums : List String)
    (categoryCountPairs : List (String × Nat)) : Except String PyDict :=
  let categoryToCount := dictUpdate (dictFromKeys categoryEnums 0) categoryCountPairs
  let illegalCategories := categoryToCount.keys.filter
    (fun k => ! categoryEnums.contains k)
  if illegalCategories.isEmpty then
    .ok categoryToCount
  else
    .error "illegal categories got from the Event DB"

/-- Updating with pairs whose keys are already present leaves the key
list unchanged. -/
theorem dictUpdate_keys_of_mem :
    ∀ (pairs : List (String × Nat)) (d : PyDict),
      (∀ p ∈ pairs, d.keys.contains p.1 = true) →
      (dictUpdate d pairs).keys = d.keys := by
  intro pairs
  induction pairs with
  | nil => intro d _; rfl
  | cons p ps ih =>
    intro d hmem
    have hset : (dictSet d p.1 p.2).keys = d.keys := by
      unfold dictSet
      rw [if_pos (hmem p (List.mem_cons_self p ps))]
    show (dictUpdate (dictSet d p.1 p.2) ps).keys = d.keys
    rw [ih (dictSet d p.1 p.2) (fun q hq => by
      rw [hset]; exact hmem q (List.mem_cons_of_mem p hq))]
    exact hset

/-- A key once present stays present through an update, and every
updated key becomes present. -/
theorem dictUpdate_keys_superset :
    ∀ (pairs : List (String × Nat)) (d : PyDict),
      (∀ k, d.keys.contains k = true → (dictUpdate d pairs).keys.contains k = true) ∧
      (∀ p ∈ pairs, (dictUpdate d pairs).keys.contains p.1 = true) := by
  intro pairs
  induction pairs with
  | nil =>
    intro d
    exact ⟨fun k h => h, fun p hp => absurd hp (List.not_mem_nil p)⟩
  | cons p ps ih =>
    intro d
    have hsetmem : ∀ k, (dictSet d p.1 p.2).keys.contains k = true
        ∨ ¬ (dictSet d p.1 p.2).keys.contains k = true := fun k => em _
    have hset_preserves : ∀ k, d.keys.contains k = true →
        (dictSet d p.1 p.2).keys.contains k = true := by
      intro k hk
      unfold dictSet
      by_cases hc : d.keys.contains p.1 = true
      · rw [if_pos hc]; exact hk
      · rw [if_neg hc]
        rw [List.elem_iff] at hk ⊢
        exact List.mem_append_left _ hk
    have hset_self : (dictSet d p.1 p.2).keys.contains p.1 = true := by
      unfold dictSet
      by_cases hc : d.keys.contains p.1 = true
      · rw [if_pos hc]; exact hc
      · rw [if_neg hc]
        rw [List.elem_iff]
        exact List.mem_append_right _ (List.mem_singleton.mpr rfl)
    constructor
    · intro k hk
      exact (ih (dictSet d p.1 p.2)).1 k (hset_preserves k hk)
    · intro q hq
      rcases List.mem_cons.mp hq with rfl | hq'
      · exact (ih (dictSet d q.1 q.2)).1 q.1 hset_self
      · exact (ih (dictSet d p.1 p.2)).2 q hq'

/-- The value of a key after an update: the last value the pairs
assign to it, or the previous value if the pairs never touch it. -/
theorem dictUpdate_val :
    ∀ (pairs : List (String × Nat)) (d : PyDict) (c : String),
      (dictUpdate d pairs).val c
        = (pairs.filter (fun p => p.1 = c)).foldl (fun _ p => p.2) (d.val c) := by
  intro pairs
  induction pairs with
  | nil => intro d c; rfl
  | cons p ps ih =>
    intro d c
    show (dictUpdate (dictSet d p.1 p.2) ps).val c = _
    rw [ih]
    by_cases hpc : p.1 = c
    · rw [List.filter_cons_of_pos (by simp [hpc])]
      simp only [List.foldl_cons]
      congr 1
      unfold dictSet
      simp only
      rw [if_pos hpc.symm]
    · rw [List.filter_cons_of_neg (by simp [hpc])]
      congr 1
      unfold dictSet
      simp only
      rw [if_neg (fun h => hpc h.symm)]

/-- **C6.** `get_counts_per_category` returns a mapping whose key set
is exactly the canonical category enumeration: every category absent
from the store's `(category, count)` pairs is mapped to `0`, and the
returned pairs are overlaid on those defaults (last assignment wins);
if the store returns any category outside the canonical enumeration,
the operation raises a fatal error — aborting the whole count
operation — rather than ignoring that category. -/
theorem claim_C6_counts_per_category (enums : List String)
    (pairs : List (String × Nat)) (hnodup : enums.Nodup) :
    ((∀ p ∈ pairs, p.1 ∈ enums) →
      ∃ d, getCountsPerCategory enums pairs = .ok d ∧
        d.keys = enums ∧
        (∀ c, c ∉ pairs.map Prod.fst → d.val c = 0) ∧
        (∀ c, d.val c = (pairs.filter (fun p => p.1 = c)).foldl (fun _ p => p.2) 0)) ∧
    ((∃ p ∈ pairs, p.1 ∉ enums) →
      ∃ e, getCountsPerCategory enums pairs = .error e) := by
  have hdedup : enums.dedup = enums := List.dedup_eq_self.mpr hnodup
  constructor
  · intro hin
    have hkeys : (dictUpdate (dictFromKeys enums 0) pairs).keys = enums := by
      rw [dictUpdate_keys_of_mem pairs (dictFromKeys enums 0) ?_]
      · show enums.dedup = enums
        exact hdedup
      · intro p hp
        show enums.dedup.contains p.1 = true
        rw [List.elem_iff, List.mem_dedup]
        exact hin p hp
    have hillegal : (dictUpdate (dictFromKeys enums 0) pairs).keys.filter
        (fun k => ! enums.contains k) = [] := by
      rw [hkeys]
      refine List.filter_eq_nil_iff.mpr ?_
      intro k hk
      simpa using hk
    refine ⟨dictUpdate (dictFromKeys enums 0) pairs, ?_, hkeys, ?_, ?_⟩
    · simp only [getCountsPerCategory]
      rw [hillegal]
      rfl
    · intro c hc
      rw [dictUpdate_val]
      have hfil : pairs.filter (fun p => p.1 = c) = [] := by
        refine List.filter_eq_nil_iff.mpr ?_
        intro p hp
        simp only [decide_eq_true_eq]
        intro heq
        exact hc (List.mem_map.mpr ⟨p, hp, heq⟩)
      rw [hfil]
      rfl
    · intro c
      rw [dictUpdate_val]
      rfl
  · rintro ⟨p, hp, hout⟩
    have hkmem : (dictUpdate (dictFromKeys enums 0) pairs).keys.contains p.1 = true :=
      (dictUpdate_keys_superset pairs (dictFromKeys enums 0)).2 p hp
    have hillegal : p.1 ∈ (dictUpdate (dictFromKeys enums 0) pairs).keys.filter
        (fun k => ! enums.contains k) := by
      refine List.mem_filter.mpr ⟨List.elem_iff.mp hkmem, ?_⟩
      simpa using hout
    have hne : (dictUpdate (dictFromKeys enums 0) pairs).keys.filter
        (fun k => ! enums.contains k) ≠ [] := by
      intro h
      rw [h] at hillegal
      exact List.not_mem_nil p.1 hillegal
    refine ⟨"illegal categories got from the Event DB", ?_⟩
    simp only [getCountsPerCategory]
    rw [if_neg (fun h => hne (List.isEmpty_iff.mp h))]

/-- Witness for C6 at concrete inputs: a store answer covering one
category yields the full canonical mapping with zeros elsewhere; a
store answer with a synthetic out-of-enumeration category makes the
operation fail. -/
theorem claim_C6_counts_per_category_witness :
    (∃ d, getCountsPerCategory ["amplifier", "bots", "cnc"] [("bots", 3)] = .ok d ∧
      d.keys = ["amplifier", "bots", "cnc"] ∧
      (∀ c, c ∉ [("bots", 3)].map Prod.fst → d.val c = 0) ∧
      (∀ c, d.val c
        = ([("bots", 3)].filter (fun p => p.1 = c)).foldl (fun _ p => p.2) 0)) ∧
    (∃ e, getCountsPerCategory ["amplifier", "bots", "cnc"] [("weird", 1)] = .error e) :=
  ⟨(claim_C6_counts_per_category ["amplifier", "bots", "cnc"] [("bots", 3)]
      (by decide)).1 (by decide),
   (claim_C6_counts_per_category ["amplifier", "bots", "cnc"] [("weird", 1)]
      (by decide)).2 ⟨("weird", 1), by decide, by decide⟩⟩
